import Mathlib

/-!
The store, index and segment of the gowal commit log

A shallow embedding of `internal/log/store.go` and `internal/log/index.go`, and of the
segment that binds them, whose source file is absent and which is modelled from the
specification.

* A file is the list of its bytes.  The file system is idealised: writes, syncs and
  closes do not fail, and a write lands at the end of the file (the handle of a store
  is opened in append mode).  What the operating system rejects by contract is kept:
  a negative offset or length, a read whose end lies beyond the largest file offset
  `2 ^ 63 - 1`, a read that hits the end of the file, and the mapping of an empty file.
* `uint64`, `uint32` and `int64` values are natural numbers and integers; every place
  where the Go code can wrap around carries an explicit `% 2 ^ w`.
* The results of fallible operations are `Except Err _`; a run-time panic (slice bounds
  out of range) is the error `Err.panic`.
-/

namespace Gowal

/-! ## Bytes, machine integers, errors -/

/-- One byte. -/
abbrev Byte := Fin 256

/-- The ways an operation can fail: `eof` is `io.EOF`; `invalid` is the error the
operating system returns for an invalid argument (a negative offset or length, a read
that ends beyond the largest file offset, a mapping of length zero); `panic` is a Go run-time
panic (slice bounds out of range, `makeslice: len out of range`); `corrupt` is the
failure to deserialise a record. -/
inductive Err where
  | eof
  | invalid
  | panic
  | corrupt
deriving DecidableEq, Repr

deriving instance DecidableEq for Except

/-- Conversion `byte(v)`: the low eight bits. -/
def toByte (v : Nat) : Byte := ⟨v % 256, Nat.mod_lt _ (by decide)⟩

/-- Conversion `int64(x)` of a `uint64` value: two's complement reinterpretation. -/
def int64 (x : Nat) : Int :=
  if x % 2 ^ 64 < 2 ^ 63 then ((x % 2 ^ 64 : Nat) : Int) else ((x % 2 ^ 64 : Nat) : Int) - 2 ^ 64

/-- Conversion `uint32(x)` of an `int64` value: the low 32 bits. -/
def uint32 (x : Int) : Nat := (x % 2 ^ 32).toNat

/-- Encoding used to persist records on disk, `enc.PutUint32`: four bytes, most
significant first. -/
def PutUint32 (v : Nat) : List Byte :=
  [toByte (v / 2 ^ 24), toByte (v / 2 ^ 16), toByte (v / 2 ^ 8), toByte v]

/-- Encoding `enc.PutUint64`: eight bytes, most significant first. -/
def PutUint64 (v : Nat) : List Byte :=
  [toByte (v / 2 ^ 56), toByte (v / 2 ^ 48), toByte (v / 2 ^ 40), toByte (v / 2 ^ 32),
   toByte (v / 2 ^ 24), toByte (v / 2 ^ 16), toByte (v / 2 ^ 8), toByte v]

/-- Decoding `enc.Uint32` of the first four bytes of a slice.  The callers always pass a
slice of exactly four bytes; on a shorter one Go panics, here the value is 0. -/
def Uint32 : List Byte → Nat
  | b0 :: b1 :: b2 :: b3 :: _ => b3.val + b2.val * 2 ^ 8 + b1.val * 2 ^ 16 + b0.val * 2 ^ 24
  | _ => 0

/-- Decoding `enc.Uint64` of the first eight bytes of a slice (see `Uint32`). -/
def Uint64 : List Byte → Nat
  | b0 :: b1 :: b2 :: b3 :: b4 :: b5 :: b6 :: b7 :: _ =>
      b7.val + b6.val * 2 ^ 8 + b5.val * 2 ^ 16 + b4.val * 2 ^ 24 + b3.val * 2 ^ 32
        + b2.val * 2 ^ 40 + b1.val * 2 ^ 48 + b0.val * 2 ^ 56
  | _ => 0

/-! ## Files -/

/-- Positional read `(*os.File).ReadAt(b, off)` with `len(b) = n`: the bytes read and the
error.  A negative offset is rejected; a read of zero bytes succeeds wherever it is
(no system call is made); a read whose end `off + n` lies beyond the largest file
offset `2 ^ 63 - 1` is rejected by `pread` as an invalid argument; otherwise fewer than
`n` bytes available is `io.EOF`. -/
def File.ReadAt (f : List Byte) (n : Nat) (off : Int) : List Byte × Option Err :=
  if off < 0 then ([], some Err.invalid)
  else if 0 < n ∧ 2 ^ 63 ≤ off.toNat + n then ([], some Err.invalid)
  else
    let got := (f.drop off.toNat).take n
    if got.length < n then (got, some Err.eof) else (got, none)

/-- Resizing `Truncate(size)`: a negative size is rejected, a shorter file is cut, a
longer one is filled with zero bytes. -/
def File.Truncate (f : List Byte) (size : Int) : Except Err (List Byte) :=
  if size < 0 then Except.error Err.invalid
  else Except.ok (f.take size.toNat ++ List.replicate (size.toNat - f.length) (0 : Byte))

/-! ## Store (`store.go`) -/

/-- Size of the record length in bytes. -/
def lenWidth : Nat := 8

/-- Buffer size of `bufio.NewWriter`. -/
def defaultBufSize : Nat := 4096

/-- The store: `file` is the content of the embedded `*os.File`, `buf` the bytes held by
the `bufio.Writer` and not yet written to the file, `size` the `uint64` counter. -/
structure store where
  file : List Byte
  buf : List Byte
  size : Nat
deriving DecidableEq, Repr

/-- Constructor `newStore`: the size is the length of the file, the buffer is empty. -/
def newStore (f : List Byte) : store :=
  { file := f, buf := [], size := f.length % 2 ^ 64 }

/-- Method `(*bufio.Writer).Flush`: the buffered bytes go to the end of the file. -/
def store.flush (s : store) : store :=
  { s with file := s.file ++ s.buf, buf := [] }

/-- Method `(*bufio.Writer).Write(p)`.  While `p` is longer than the room left, an empty
buffer lets `p` go straight to the file, and a non-empty one is filled up and flushed;
what remains is copied into the buffer.  After a flush the buffer is empty, so the loop
body runs at most twice, which is how it is written out here. -/
def store.bufWrite (s : store) (p : List Byte) : store :=
  if defaultBufSize - s.buf.length < p.length then
    if s.buf.length = 0 then { s with file := s.file ++ p }
    else
      let n := defaultBufSize - s.buf.length
      let s1 := store.flush { s with buf := s.buf ++ p.take n }
      let p1 := p.drop n
      if defaultBufSize < p1.length then { s1 with file := s1.file ++ p1 }
      else { s1 with buf := p1 }
  else { s with buf := s.buf ++ p }

/-- Method `store.Append`: returns the number of bytes written, the position where the
record starts, and the store afterwards.  The two writes cannot fail in this model, so
the error returns of the Go code are not reached. -/
def store.Append (s : store) (p : List Byte) : Nat × Nat × store :=
  let pos := s.size
  let s1 := s.bufWrite (PutUint64 p.length)
  let s2 := s1.bufWrite p
  let w := p.length + lenWidth
  (w % 2 ^ 64, pos, { s2 with size := (s.size + w % 2 ^ 64) % 2 ^ 64 })

/-- Method `store.Read`: flush, read the eight bytes of the length at `pos`, then that
many bytes at `pos + 8`.  Returns the result and the (flushed) store.  A length that
does not fit an `int` makes `make` panic (`makeslice: len out of range`); the lower
limits of the allocator depend on the platform and on the memory at hand and are not
modelled: the length of a payload that was appended is below them. -/
def store.Read (s : store) (pos : Nat) : Except Err (List Byte) × store :=
  let s1 := s.flush
  match File.ReadAt s1.file lenWidth (int64 pos) with
  | (_, some e) => (Except.error e, s1)
  | (size, none) =>
    if 2 ^ 63 ≤ Uint64 size then (Except.error Err.panic, s1)
    else
      match File.ReadAt s1.file (Uint64 size) (int64 ((pos + lenWidth) % 2 ^ 64)) with
      | (_, some e) => (Except.error e, s1)
      | (b, none) => (Except.ok b, s1)

/-- Method `store.ReadAt`: flush, then a positional read of `n = len(p)` bytes. -/
def store.ReadAt (s : store) (n : Nat) (offset : Int) : (List Byte × Option Err) × store :=
  let s1 := s.flush
  (File.ReadAt s1.file n offset, s1)

/-- Method `store.Close`: flush and close; returns the content of the file. -/
def store.Close (s : store) : List Byte :=
  s.flush.file

/-! ## Index (`index.go`) -/

/-- Width of the record offset in an index entry. -/
def offWidth : Nat := 4

/-- Width of the record position in an index entry. -/
def posWidth : Nat := 8

/-- Width of an index entry. -/
def entWidth : Nat := offWidth + posWidth

/-- The index: `mmap` is the memory-mapped file (shared with the persisted file, so it
is also the content of that file), `size` the `uint64` counter of used bytes. -/
structure index where
  mmap : List Byte
  size : Nat
deriving DecidableEq, Repr

/-- Slice expression `a[lo:hi]`: panics unless `lo ≤ hi ≤ len(a)`. -/
def slice (a : List Byte) (lo hi : Nat) : Except Err (List Byte) :=
  if lo ≤ hi ∧ hi ≤ a.length then Except.ok ((a.drop lo).take (hi - lo))
  else Except.error Err.panic

/-- Writing `bs` (of length `hi - lo`) through the slice `a[lo:hi]` of the mapped
region: panics unless `lo ≤ hi ≤ len(a)`, and changes no byte outside `[lo, hi)`. -/
def putSlice (a : List Byte) (lo hi : Nat) (bs : List Byte) : Except Err (List Byte) :=
  if lo ≤ hi ∧ hi ≤ a.length then Except.ok (a.take lo ++ bs ++ a.drop hi)
  else Except.error Err.panic

/-- Library call `gommap.Map` of a whole file, read-write and shared: the mapped region
is the content of the file; a mapping of length zero is rejected by `mmap` as an invalid
argument. -/
def Map (f : List Byte) : Except Err (List Byte) :=
  if f.length = 0 then Except.error Err.invalid else Except.ok f

/-- Constructor `newIndex` over a file with content `f` and `c.Segment.MaxIndexBytes =
maxIndexBytes`: the size is the length of the file, the file is resized to the maximum
and mapped. -/
def newIndex (f : List Byte) (maxIndexBytes : Nat) : Except Err index :=
  match File.Truncate f (int64 maxIndexBytes) with
  | Except.error e => Except.error e
  | Except.ok t =>
    match Map t with
    | Except.error e => Except.error e
    | Except.ok m => Except.ok { mmap := m, size := f.length % 2 ^ 64 }

/-- Method `index.Read`: the entry selected by `sel` (an `int64`; `-1` is the last
entry), as the pair of the decoded offset and position. -/
def index.Read (i : index) (sel : Int) : Except Err (Nat × Nat) :=
  if i.size = 0 then Except.error Err.eof
  else
    let out : Nat :=
      if sel = -1 then ((i.size / entWidth + 2 ^ 64 - 1) % 2 ^ 64) % 2 ^ 32 else uint32 sel
    let pos : Nat := (out * entWidth) % 2 ^ 64
    if i.size < (pos + entWidth) % 2 ^ 64 then Except.error Err.eof
    else
      match slice i.mmap pos ((pos + offWidth) % 2 ^ 64) with
      | Except.error e => Except.error e
      | Except.ok b1 =>
        match slice i.mmap ((pos + offWidth) % 2 ^ 64) ((pos + entWidth) % 2 ^ 64) with
        | Except.error e => Except.error e
        | Except.ok b2 => Except.ok (Uint32 b1, Uint64 b2)

/-- Method `index.Write` of an offset (`uint32`) and a position (`uint64`): the error, or
the index afterwards.  Every error is raised before the first assignment to the mapped
region or to the size, so on an error the index is as before the call. -/
def index.Write (i : index) (off pos : Nat) : Except Err index :=
  if i.mmap.length < (i.size + entWidth) % 2 ^ 64 then Except.error Err.eof
  else
    match putSlice i.mmap i.size ((i.size + offWidth) % 2 ^ 64) (PutUint32 off) with
    | Except.error e => Except.error e
    | Except.ok m1 =>
      match putSlice m1 ((i.size + offWidth) % 2 ^ 64) ((i.size + entWidth) % 2 ^ 64)
          (PutUint64 pos) with
      | Except.error e => Except.error e
      | Except.ok m2 => Except.ok { mmap := m2, size := (i.size + entWidth) % 2 ^ 64 }

/-- Method `index.Close`: sync, then truncate the file to the size and close it; returns
the content of the persisted file. -/
def index.Close (i : index) : Except Err (List Byte) :=
  File.Truncate i.mmap (int64 i.size)

/-- The index after writing the entries of `ws` one after the other, stopping at the
first error. -/
def index.writeAll (i : index) : List (Nat × Nat) → Except Err index
  | [] => Except.ok i
  | w :: ws =>
    match i.Write w.1 w.2 with
    | Except.error e => Except.error e
    | Except.ok j => j.writeAll ws

/-- The store after appending the payloads of `ps` one after the other. -/
def store.appendAll (s : store) : List (List Byte) → store
  | [] => s
  | p :: ps => (s.Append p).2.2.appendAll ps

/-! ## Segment

The file `segment.go` is not among the sources; the segment is modelled from its
description in the specification (section 4.3), over the store and the index above.
-/

/-- Modelled from the spec: the record (`api.Record`, not among the sources), an opaque
payload with its assigned absolute offset. -/
structure Record where
  value : List Byte
  offset : Nat
deriving DecidableEq, Repr

/-- Modelled from the spec: the serialisation of records, which the specification leaves
to an external layer; it is a parameter of the segment operations. -/
structure Codec where
  marshal : Record → List Byte
  unmarshal : List Byte → Option Record

/-- Modelled from the spec: the configuration consumed by the core (`Config`, not among
the sources), `Segment.MaxStoreBytes` and `Segment.MaxIndexBytes`. -/
structure Config where
  MaxStoreBytes : Nat
  MaxIndexBytes : Nat
deriving DecidableEq, Repr

/-- Modelled from the spec: the segment (`segment.go`, not among the sources) owns one
store and one index and has a base offset and a next offset. -/
structure segment where
  store : store
  index : index
  baseOffset : Nat
  nextOffset : Nat
  config : Config
deriving DecidableEq, Repr

/-- Modelled from the spec: `open(directory, base_offset, config)` of `segment.go` over
the contents of the store file and of the index file (empty when just created):
"constructs Store and Index over them; sets next_offset = base_offset + (index logical
size / 12)". -/
def newSegment (storeFile indexFile : List Byte) (baseOffset : Nat) (c : Config) :
    Except Err segment :=
  match newIndex indexFile c.MaxIndexBytes with
  | Except.error e => Except.error e
  | Except.ok idx =>
    Except.ok
      { store := newStore storeFile, index := idx, baseOffset := baseOffset,
        nextOffset := (baseOffset + idx.size / entWidth) % 2 ^ 64, config := c }

/-- Modelled from the spec: `append(record)` of `segment.go`: "assigns the record's
offset = next_offset; serializes it; calls Store.append to obtain (written, position);
calls Index.write(next_offset - base_offset, position); on success increments
next_offset and returns the assigned offset.  A failure from either call is returned
unchanged and next_offset is left unadvanced."  Returns the result and the segment
afterwards (on a failed index write the store keeps the record). -/
def segment.Append (cd : Codec) (sg : segment) (r : Record) : Except Err Nat × segment :=
  let cur := sg.nextOffset
  let p := cd.marshal { r with offset := cur }
  let a := sg.store.Append p
  match sg.index.Write ((sg.nextOffset + 2 ^ 64 - sg.baseOffset) % 2 ^ 64) a.2.1 with
  | Except.error e => (Except.error e, { sg with store := a.2.2 })
  | Except.ok idx =>
    (Except.ok cur, { sg with store := a.2.2, index := idx, nextOffset := (cur + 1) % 2 ^ 64 })

/-- Modelled from the spec: `read(absolute_offset)` of `segment.go`: "computes relative =
absolute_offset - base_offset; Index.read(relative) → position; Store.read(position) →
raw bytes; deserializes into a record.  Range/capacity errors from either layer
propagate unchanged."  Returns the result and the segment afterwards (the store read
flushes). -/
def segment.Read (cd : Codec) (sg : segment) (off : Nat) : Except Err Record × segment :=
  match sg.index.Read (int64 ((off + 2 ^ 64 - sg.baseOffset) % 2 ^ 64)) with
  | Except.error e => (Except.error e, sg)
  | Except.ok ent =>
    let r := sg.store.Read ent.2
    match r.1 with
    | Except.error e => (Except.error e, { sg with store := r.2 })
    | Except.ok b =>
      match cd.unmarshal b with
      | none => (Except.error Err.corrupt, { sg with store := r.2 })
      | some rec => (Except.ok rec, { sg with store := r.2 })

/-- Modelled from the spec: `is_maxed()` of `segment.go`: "true iff Store logical size ≥
configured max store bytes OR Index logical size ≥ configured max index bytes". -/
def segment.IsMaxed (sg : segment) : Bool :=
  decide (sg.config.MaxStoreBytes ≤ sg.store.size) || decide (sg.config.MaxIndexBytes ≤ sg.index.size)

/-- The results of appending the records of `rs` one after the other, and the segment
afterwards. -/
def segment.appendAll (cd : Codec) (sg : segment) : List Record → List (Except Err Nat) × segment
  | [] => ([], sg)
  | r :: rs =>
    let a := sg.Append cd r
    let b := segment.appendAll cd a.2 rs
    (a.1 :: b.1, b.2)

/-- A serialisation for concrete runs: the eight bytes of the offset, then the payload. -/
def offsetCodec : Codec where
  marshal r := PutUint64 r.offset ++ r.value
  unmarshal b :=
    if b.length < 8 then none else some { value := b.drop 8, offset := Uint64 (b.take 8) }

/-- The entry number `out` that `index.Read` computes from its selector. -/
def index.selected (i : index) (sel : Int) : Nat :=
  if sel = -1 then ((i.size / entWidth + 2 ^ 64 - 1) % 2 ^ 64) % 2 ^ 32 else uint32 sel

/-- The pair decoded from the twelve bytes of `m` at byte position `12 * e`: the
big-endian four-byte offset and the big-endian eight-byte position. -/
def entryAt (m : List Byte) (e : Nat) : Nat × Nat :=
  (Uint32 ((m.drop (12 * e)).take 4), Uint64 ((m.drop (12 * e + 4)).take 8))

/-- The twelve bytes of the index entry of an (offset, position) pair. -/
def encodeEntry (w : Nat × Nat) : List Byte := PutUint32 w.1 ++ PutUint64 w.2

/-- The bytes of a sequence of index entries. -/
def encodeAll : List (Nat × Nat) → List Byte
  | [] => []
  | w :: ws => encodeEntry w ++ encodeAll ws

/-- The index after the call `i.Write off pos`, whether it succeeded or failed. -/
def index.afterWrite (i : index) (off pos : Nat) : index :=
  match i.Write off pos with
  | Except.error _ => i
  | Except.ok j => j

/-- The index after the call `i.Read sel`: `index.Read` assigns to its results `out` and
`pos` only and to no field of the index, so the index is as before the call. -/
def index.afterRead (i : index) (_sel : Int) : index := i

/-- The logical content of a store: what the file holds once the buffer is flushed. -/
def store.content (s : store) : List Byte := s.file ++ s.buf

/-- The payloads that `segment.appendAll` hands to the store for the records `rs`, when
the first of them gets the relative offset `n` in a segment of base offset `B`. -/
def payloads (cd : Codec) (B : Nat) : Nat → List Record → List (List Byte)
  | _, [] => []
  | n, r :: rs => cd.marshal { r with offset := (B + n) % 2 ^ 64 } :: payloads cd B (n + 1) rs

/-- The state of a segment of base offset `B` that holds the payloads `ps`: the counters
agree with the content, and entry `k` of the index gives the position of a frame of the
store that holds the `k`-th payload. -/
def segment.Inv (sg : segment) (B : Nat) (ps : List (List Byte)) : Prop :=
  sg.baseOffset = B ∧ sg.nextOffset = (B + ps.length) % 2 ^ 64 ∧
  sg.store.size = sg.store.content.length ∧
  sg.index.size = 12 * ps.length ∧ sg.index.size ≤ sg.index.mmap.length ∧
  ∀ k p, ps[k]? = some p →
    ∃ a c, sg.store.content = a ++ PutUint64 p.length ++ p ++ c ∧
      (entryAt sg.index.mmap k).2 = a.length


/-! ## Encoding lemmas -/

theorem Uint32_PutUint32 (v : Nat) : Uint32 (PutUint32 v) = v % 2 ^ 32 := by
  simp only [Uint32, PutUint32, toByte]
  omega

theorem Uint64_PutUint64 (v : Nat) : Uint64 (PutUint64 v) = v % 2 ^ 64 := by
  simp only [Uint64, PutUint64, toByte]
  omega

theorem length_PutUint32 (v : Nat) : (PutUint32 v).length = 4 := rfl

theorem length_PutUint64 (v : Nat) : (PutUint64 v).length = 8 := rfl

theorem int64_of_lt {x : Nat} (h : x < 2 ^ 63) : int64 x = (x : Int) := by
  have h1 : x % 2 ^ 64 = x := Nat.mod_eq_of_lt (by omega)
  simp only [int64, h1, h, if_true]

theorem int64_neg {x : Nat} (h1 : 2 ^ 63 ≤ x) (h2 : x < 2 ^ 64) : int64 x < 0 := by
  have h3 : x % 2 ^ 64 = x := Nat.mod_eq_of_lt h2
  have h4 : ¬ x < 2 ^ 63 := by omega
  simp only [int64, h3, h4, if_false]
  omega

/-! ## File lemmas -/

theorem File.ReadAt_mid (a b c : List Byte) (h : a.length + b.length < 2 ^ 63) :
    File.ReadAt (a ++ b ++ c) b.length (a.length : Int) = (b, none) := by
  have h1 : ¬ ((a.length : Int) < 0) := by omega
  have h2 : ¬ (0 < b.length ∧ 2 ^ 63 ≤ a.length + b.length) := by omega
  simp only [File.ReadAt, Int.toNat_natCast]
  rw [if_neg h1, if_neg h2]
  simp

theorem File.ReadAt_beyond (f : List Byte) (n : Nat) (off : Nat) (h : f.length ≤ off)
    (hn : 0 < n) (h63 : off + n < 2 ^ 63) : (File.ReadAt f n (off : Int)).2 = some Err.eof := by
  have h1 : f.drop off = [] := List.drop_eq_nil_of_le h
  have h2 : ¬ ((off : Int) < 0) := by omega
  have h3 : ¬ (0 < n ∧ 2 ^ 63 ≤ off + n) := by omega
  simp only [File.ReadAt, Int.toNat_natCast]
  rw [if_neg h2, if_neg h3]
  simp [h1, hn]

theorem File.ReadAt_range (f : List Byte) (n : Nat) (off : Nat) (hn : 0 < n)
    (h63 : 2 ^ 63 ≤ off + n) : (File.ReadAt f n (off : Int)).2 = some Err.invalid := by
  have h2 : ¬ ((off : Int) < 0) := by omega
  have h3 : 0 < n ∧ 2 ^ 63 ≤ off + n := ⟨hn, h63⟩
  simp only [File.ReadAt, Int.toNat_natCast]
  rw [if_neg h2, if_pos h3]

/-! ## Store lemmas -/

theorem store.content_flush (s : store) : s.flush.file = s.content := rfl

theorem store.content_bufWrite (s : store) (p : List Byte) :
    (s.bufWrite p).content = s.content ++ p := by
  unfold store.bufWrite store.content
  split
  · split
    · rename_i h
      have hb : s.buf = [] := List.length_eq_zero.mp h
      simp [hb]
    · simp only []
      split
      · simp [store.flush, List.append_assoc]
      · simp [store.flush, List.append_assoc]
  · simp [List.append_assoc]

theorem store.content_Append (s : store) (p : List Byte) :
    (s.Append p).2.2.content = s.content ++ PutUint64 p.length ++ p := by
  have h : (s.Append p).2.2.content
      = ((s.bufWrite (PutUint64 p.length)).bufWrite p).content := rfl
  rw [h, store.content_bufWrite, store.content_bufWrite]

theorem store.content_appendAll (s : store) (qs : List (List Byte)) :
    ∃ rest, (s.appendAll qs).content = s.content ++ rest := by
  induction qs generalizing s with
  | nil => exact ⟨[], by simp [store.appendAll]⟩
  | cons q qs ih =>
    obtain ⟨rest, hrest⟩ := ih (s.Append q).2.2
    refine ⟨PutUint64 q.length ++ q ++ rest, ?_⟩
    rw [store.appendAll, hrest, store.content_Append]
    simp [List.append_assoc]

theorem store.size_Append_eq (s : store) (p : List Byte) :
    (s.Append p).2.2.size = (s.size + (p.length + lenWidth) % 2 ^ 64) % 2 ^ 64 := rfl

theorem store.pos_Append_eq (s : store) (p : List Byte) : (s.Append p).2.1 = s.size := rfl

theorem store.written_Append_eq (s : store) (p : List Byte) :
    (s.Append p).1 = (p.length + lenWidth) % 2 ^ 64 := rfl

/-- Reading at the start of a frame of the logical content returns its payload. -/
theorem store.Read_frame (s : store) (a p c : List Byte)
    (hc : s.content = a ++ PutUint64 p.length ++ p ++ c)
    (hlen : s.content.length < 2 ^ 63) :
    (s.Read a.length).1 = Except.ok p := by
  have hl : a.length + 8 + p.length + c.length < 2 ^ 63 := by
    have := congrArg List.length hc
    simp only [List.length_append, length_PutUint64] at this
    omega
  have h1 : int64 a.length = (a.length : Int) := int64_of_lt (by omega)
  have h2 : int64 ((a.length + lenWidth) % 2 ^ 64)
      = ((a ++ PutUint64 p.length).length : Int) := by
    have h3 : (a.length + lenWidth) % 2 ^ 64 = a.length + 8 :=
      Nat.mod_eq_of_lt (by simp only [lenWidth]; omega)
    rw [h3, int64_of_lt (by omega)]
    simp [length_PutUint64]
  have r1 : File.ReadAt s.flush.file lenWidth (int64 a.length)
      = (PutUint64 p.length, none) := by
    rw [h1, store.content_flush, hc]
    have := File.ReadAt_mid a (PutUint64 p.length) (p ++ c)
      (by rw [length_PutUint64]; omega)
    rw [length_PutUint64] at this
    simpa [List.append_assoc, lenWidth] using this
  have hu : Uint64 (PutUint64 p.length) = p.length := by
    rw [Uint64_PutUint64]
    exact Nat.mod_eq_of_lt (by omega)
  have r2 : File.ReadAt s.flush.file p.length (int64 ((a.length + lenWidth) % 2 ^ 64))
      = (p, none) := by
    rw [h2, store.content_flush, hc]
    exact File.ReadAt_mid (a ++ PutUint64 p.length) p c
      (by rw [List.length_append, length_PutUint64]; omega)
  have hp : ¬ (2 ^ 63 ≤ p.length) := by omega
  simp only [store.Read, r1, hu, r2, hp, if_false]

/-! ## Index lemmas -/

theorem length_encodeEntry (w : Nat × Nat) : (encodeEntry w).length = 12 := rfl

theorem length_encodeAll (ws : List (Nat × Nat)) : (encodeAll ws).length = 12 * ws.length := by
  induction ws with
  | nil => rfl
  | cons w ws ih => simp only [encodeAll, List.length_append, length_encodeEntry, ih,
      List.length_cons]; omega

theorem index.Write_ok (i : index) (off pos : Nat) (h : i.size + 12 ≤ i.mmap.length)
    (hcap : i.mmap.length < 2 ^ 64) :
    i.Write off pos = Except.ok
      { mmap := i.mmap.take i.size ++ encodeEntry (off, pos) ++ i.mmap.drop (i.size + 12),
        size := i.size + 12 } := by
  have e1 : (i.size + entWidth) % 2 ^ 64 = i.size + 12 :=
    Nat.mod_eq_of_lt (by simp only [entWidth, offWidth, posWidth]; omega)
  have e2 : (i.size + offWidth) % 2 ^ 64 = i.size + 4 :=
    Nat.mod_eq_of_lt (by simp only [offWidth]; omega)
  have g : ¬ (i.mmap.length < i.size + 12) := by omega
  have p1 : putSlice i.mmap i.size (i.size + 4) (PutUint32 off)
      = Except.ok (i.mmap.take i.size ++ PutUint32 off ++ i.mmap.drop (i.size + 4)) := by
    have : i.size ≤ i.size + 4 ∧ i.size + 4 ≤ i.mmap.length := ⟨by omega, by omega⟩
    simp only [putSlice, this, and_self, if_true]
  have hl : (i.mmap.take i.size ++ PutUint32 off).length = i.size + 4 := by
    simp only [List.length_append, List.length_take, length_PutUint32]
    omega
  have hl1 : (i.mmap.take i.size ++ PutUint32 off ++ i.mmap.drop (i.size + 4)).length
      = i.mmap.length := by
    rw [List.length_append, hl, List.length_drop]
    omega
  have p2 : putSlice (i.mmap.take i.size ++ PutUint32 off ++ i.mmap.drop (i.size + 4))
      (i.size + 4) (i.size + 12) (PutUint64 pos)
      = Except.ok (i.mmap.take i.size ++ encodeEntry (off, pos)
          ++ i.mmap.drop (i.size + 12)) := by
    have c : i.size + 4 ≤ i.size + 12 ∧ i.size + 12 ≤
        (i.mmap.take i.size ++ PutUint32 off ++ i.mmap.drop (i.size + 4)).length := by
      rw [hl1]; omega
    have t : (i.mmap.take i.size ++ PutUint32 off ++ i.mmap.drop (i.size + 4)).take (i.size + 4)
        = i.mmap.take i.size ++ PutUint32 off := List.take_left' hl
    have d : (i.mmap.take i.size ++ PutUint32 off ++ i.mmap.drop (i.size + 4)).drop (i.size + 12)
        = i.mmap.drop (i.size + 12) := by
      have : i.size + 12 = (i.mmap.take i.size ++ PutUint32 off).length + 8 := by omega
      rw [this, List.drop_append, List.drop_drop, hl]
    unfold putSlice
    rw [if_pos c, t, d]
    simp only [encodeEntry, List.append_assoc]
  simp only [index.Write, e1, e2, g, if_false, p1, p2]

theorem index.Write_eof (i : index) (off pos : Nat) (h : i.mmap.length < i.size + 12)
    (hs : i.size + 12 < 2 ^ 64) : i.Write off pos = Except.error Err.eof := by
  have e1 : (i.size + entWidth) % 2 ^ 64 = i.size + 12 :=
    Nat.mod_eq_of_lt (by simp only [entWidth, offWidth, posWidth]; omega)
  simp only [index.Write, e1, h, if_true]

theorem uint32_lt (x : Int) : uint32 x < 2 ^ 32 := by
  unfold uint32
  have h1 : 0 ≤ x % 2 ^ 32 := Int.emod_nonneg _ (by norm_num)
  have h2 : x % 2 ^ 32 < 2 ^ 32 := Int.emod_lt_of_pos _ (by norm_num)
  omega

theorem uint32_natCast (k : Nat) : uint32 (k : Int) = k % 2 ^ 32 := by
  unfold uint32
  have : ((k : Int) % 2 ^ 32) = ((k % 2 ^ 32 : Nat) : Int) := by
    simp [Int.natCast_mod]
  rw [this, Int.toNat_natCast]

theorem index.selected_lt (i : index) (sel : Int) : i.selected sel < 2 ^ 32 := by
  unfold index.selected
  split
  · exact Nat.mod_lt _ (by norm_num)
  · exact uint32_lt sel

theorem index.Read_eq (i : index) (sel : Int) (hcap : i.size ≤ i.mmap.length) :
    i.Read sel =
      if i.size = 0 ∨ i.size < 12 * i.selected sel + 12 then Except.error Err.eof
      else Except.ok (entryAt i.mmap (i.selected sel)) := by
  have hsel := i.selected_lt sel
  have hout : (if sel = -1 then ((i.size / entWidth + 2 ^ 64 - 1) % 2 ^ 64) % 2 ^ 32
      else uint32 sel) = i.selected sel := rfl
  have e0 : (i.selected sel * entWidth) % 2 ^ 64 = 12 * i.selected sel :=
    by simp only [entWidth, offWidth, posWidth]; omega
  have e1 : (12 * i.selected sel + entWidth) % 2 ^ 64 = 12 * i.selected sel + 12 :=
    by simp only [entWidth, offWidth, posWidth]; omega
  have e2 : (12 * i.selected sel + offWidth) % 2 ^ 64 = 12 * i.selected sel + 4 :=
    by simp only [offWidth]; omega
  unfold index.Read
  simp only [hout, e0, e1, e2]
  by_cases h0 : i.size = 0
  · simp [h0]
  · by_cases h1 : i.size < 12 * i.selected sel + 12
    · simp [h0, h1]
    · have c1 : 12 * i.selected sel ≤ 12 * i.selected sel + 4
          ∧ 12 * i.selected sel + 4 ≤ i.mmap.length := ⟨by omega, by omega⟩
      have c2 : 12 * i.selected sel + 4 ≤ 12 * i.selected sel + 12
          ∧ 12 * i.selected sel + 12 ≤ i.mmap.length := ⟨by omega, by omega⟩
      have a1 : 12 * i.selected sel + 4 - 12 * i.selected sel = 4 := by omega
      have a2 : 12 * i.selected sel + 12 - (12 * i.selected sel + 4) = 8 := by omega
      simp only [h0, h1, or_self, if_false, slice, c1, c2, and_self, if_true, a1, a2, entryAt]

theorem entryAt_encodeAll (ws : List (Nat × Nat)) (rest : List Byte) (e : Nat) (w : Nat × Nat)
    (h : ws[e]? = some w) :
    entryAt (encodeAll ws ++ rest) e = (w.1 % 2 ^ 32, w.2 % 2 ^ 64) := by
  induction ws generalizing e with
  | nil => simp at h
  | cons v vs ih =>
    cases e with
    | zero =>
      simp only [List.getElem?_cons_zero, Option.some.injEq] at h
      subst h
      simp only [entryAt, encodeAll, encodeEntry, PutUint32, PutUint64, List.append_assoc,
        Nat.mul_zero, List.drop_zero, Nat.zero_add]
      simp only [List.cons_append, List.nil_append, List.take, List.drop, Uint32, Uint64, toByte]
      refine Prod.ext ?_ ?_ <;> simp only [] <;> omega
    | succ e =>
      simp only [List.getElem?_cons_succ] at h
      have := ih e h
      have d1 : (encodeAll (v :: vs) ++ rest).drop (12 * (e + 1))
          = (encodeAll vs ++ rest).drop (12 * e) := by
        have : 12 * (e + 1) = (encodeEntry v).length + 12 * e := by
          rw [length_encodeEntry]; omega
        rw [this, encodeAll, List.append_assoc, List.drop_append]
      have d2 : (encodeAll (v :: vs) ++ rest).drop (12 * (e + 1) + 4)
          = (encodeAll vs ++ rest).drop (12 * e + 4) := by
        have : 12 * (e + 1) + 4 = (encodeEntry v).length + (12 * e + 4) := by
          rw [length_encodeEntry]; omega
        rw [this, encodeAll, List.append_assoc, List.drop_append]
      simp only [entryAt, d1, d2] at this ⊢
      exact this

theorem index.writeAll_ok (ws : List (Nat × Nat)) (i : index)
    (h : i.size + 12 * ws.length ≤ i.mmap.length) (hcap : i.mmap.length < 2 ^ 64) :
    i.writeAll ws = Except.ok
      { mmap := i.mmap.take i.size ++ encodeAll ws ++ i.mmap.drop (i.size + 12 * ws.length),
        size := i.size + 12 * ws.length } := by
  induction ws generalizing i with
  | nil =>
    simp only [index.writeAll, encodeAll, List.length_nil, Nat.mul_zero, Nat.add_zero,
      List.append_nil, List.take_append_drop]
  | cons w ws ih =>
    simp only [List.length_cons] at h
    have hw := i.Write_ok w.1 w.2 (by omega) hcap
    have hlen : (i.mmap.take i.size ++ encodeEntry (w.1, w.2)).length = i.size + 12 := by
      simp only [List.length_append, List.length_take, length_encodeEntry]
      omega
    have hlen2 : (i.mmap.take i.size ++ encodeEntry (w.1, w.2)
        ++ i.mmap.drop (i.size + 12)).length = i.mmap.length := by
      rw [List.length_append, hlen, List.length_drop]
      omega
    have t : (i.mmap.take i.size ++ encodeEntry (w.1, w.2) ++ i.mmap.drop (i.size + 12)).take
        (i.size + 12) = i.mmap.take i.size ++ encodeEntry (w.1, w.2) := List.take_left' hlen
    have d : (i.mmap.take i.size ++ encodeEntry (w.1, w.2) ++ i.mmap.drop (i.size + 12)).drop
        (i.size + 12 + 12 * ws.length) = i.mmap.drop (i.size + 12 * (ws.length + 1)) := by
      have e : i.size + 12 + 12 * ws.length
          = (i.mmap.take i.size ++ encodeEntry (w.1, w.2)).length + 12 * ws.length := by
        rw [hlen]
      rw [e, List.drop_append, List.drop_drop]
      congr 1
      omega
    have hj := ih
      { mmap := i.mmap.take i.size ++ encodeEntry (w.1, w.2) ++ i.mmap.drop (i.size + 12),
        size := i.size + 12 }
      (by simp only [hlen2]; omega) (by simp only [hlen2]; exact hcap)
    simp only [t, d] at hj
    simp only [index.writeAll, hw]
    rw [hj]
    simp only [encodeAll, List.append_assoc, List.length_cons, Except.ok.injEq, index.mk.injEq]
    exact ⟨trivial, by omega⟩

theorem newStore_size (f : List Byte) (h : f.length < 2 ^ 64) :
    (newStore f).size = (newStore f).content.length := by
  simp only [newStore, store.content, List.append_nil]
  exact Nat.mod_eq_of_lt h

theorem store.size_Append_inv (s : store) (p : List Byte) (hs : s.size = s.content.length)
    (h : s.size + 8 + p.length < 2 ^ 64) :
    (s.Append p).2.2.size = (s.Append p).2.2.content.length := by
  rw [store.content_Append, store.size_Append_eq]
  simp only [List.length_append, length_PutUint64, lenWidth, ← hs]
  omega

theorem store.Read_of_err (s : store) (pos : Nat) (e : Err)
    (h : (File.ReadAt s.flush.file lenWidth (int64 pos)).2 = some e) :
    (s.Read pos).1 = Except.error e := by
  rcases hr : File.ReadAt s.flush.file lenWidth (int64 pos) with ⟨got, e1⟩
  rw [hr] at h
  simp only at h
  subst h
  simp only [store.Read, hr]

theorem store.Read_state (s : store) (pos : Nat) : (s.Read pos).2 = s.flush := by
  simp only [store.Read]
  split
  · rfl
  · split
    · rfl
    · split <;> rfl

theorem store.Read_beyond (s : store) (pos : Nat) (hs : s.size = s.content.length)
    (hp : s.size ≤ pos) (h63 : pos + 8 < 2 ^ 63) : (s.Read pos).1 = Except.error Err.eof := by
  have h1 : int64 pos = (pos : Int) := int64_of_lt (by omega)
  have h2 := File.ReadAt_beyond s.flush.file lenWidth pos
    (by rw [store.content_flush, ← hs]; exact hp) (by decide) (by simp only [lenWidth]; omega)
  rw [← h1] at h2
  exact store.Read_of_err s pos Err.eof h2

theorem store.Read_range (s : store) (pos : Nat) (h63 : pos < 2 ^ 63) (h : 2 ^ 63 ≤ pos + 8) :
    (s.Read pos).1 = Except.error Err.invalid := by
  have h1 : int64 pos = (pos : Int) := int64_of_lt h63
  have h2 := File.ReadAt_range s.flush.file lenWidth pos (by decide)
    (by simp only [lenWidth]; omega)
  rw [← h1] at h2
  exact store.Read_of_err s pos Err.invalid h2

theorem store.Read_negative (s : store) (pos : Nat) (h63 : 2 ^ 63 ≤ pos) (h64 : pos < 2 ^ 64) :
    (s.Read pos).1 = Except.error Err.invalid := by
  have h1 : int64 pos < 0 := int64_neg h63 h64
  simp only [store.Read, File.ReadAt, h1, if_true]

theorem newIndex_ok (f : List Byte) (max : Nat) (h0 : 0 < max) (h : max < 2 ^ 63) :
    newIndex f max = Except.ok
      { mmap := f.take max ++ List.replicate (max - f.length) (0 : Byte),
        size := f.length % 2 ^ 64 } := by
  have h1 : int64 max = (max : Int) := int64_of_lt h
  have h2 : ¬ ((max : Int) < 0) := by omega
  have h3 : ¬ ((f.take max ++ List.replicate (max - f.length) (0 : Byte)).length = 0) := by
    rw [List.length_append, List.length_take, List.length_replicate]
    omega
  simp only [newIndex, File.Truncate, h1, h2, if_false, Int.toNat_natCast, Map, h3]

theorem newIndex_zero (f : List Byte) : newIndex f 0 = Except.error Err.invalid := by
  simp [newIndex, File.Truncate, int64, Map]

theorem take_drop_of_take (m : List Byte) (n a b : Nat) (h : a + b ≤ n) :
    (m.drop a).take b = ((m.take n).drop a).take b := by
  rw [List.drop_take, List.take_take]
  congr 1
  omega

theorem entryAt_congr (m1 m2 : List Byte) (n e : Nat) (h : m1.take n = m2.take n)
    (he : 12 * e + 12 ≤ n) : entryAt m1 e = entryAt m2 e := by
  unfold entryAt
  rw [take_drop_of_take m1 n (12 * e) 4 (by omega), take_drop_of_take m2 n (12 * e) 4 (by omega),
    take_drop_of_take m1 n (12 * e + 4) 8 (by omega),
    take_drop_of_take m2 n (12 * e + 4) 8 (by omega), h]

theorem index.selected_natCast (i : index) (k : Nat) : i.selected (k : Int) = k % 2 ^ 32 := by
  have h : ¬ ((k : Int) = -1) := by omega
  simp only [index.selected, h, if_false, uint32_natCast]

/-- Reading an explicit entry number gives the same result on two indexes that agree on
their first `n` bytes, when the entry lies within both sizes and `n`. -/
theorem index.Read_congr (i j : index) (k n : Nat) (hi : i.size ≤ i.mmap.length)
    (hj : j.size ≤ j.mmap.length) (h : j.mmap.take n = i.mmap.take n)
    (hk : 12 * k + 12 ≤ n) (hki : 12 * k + 12 ≤ i.size) (hkj : 12 * k + 12 ≤ j.size) :
    j.Read (k : Int) = i.Read (k : Int) := by
  have hm : k % 2 ^ 32 ≤ k := Nat.mod_le _ _
  rw [index.Read_eq i _ hi, index.Read_eq j _ hj, index.selected_natCast,
    index.selected_natCast]
  have c1 : ¬ (i.size = 0 ∨ i.size < 12 * (k % 2 ^ 32) + 12) := by omega
  have c2 : ¬ (j.size = 0 ∨ j.size < 12 * (k % 2 ^ 32) + 12) := by omega
  rw [if_neg c1, if_neg c2, entryAt_congr j.mmap i.mmap n (k % 2 ^ 32) h (by omega)]

theorem index.Close_ok (i : index) (hs : i.size ≤ i.mmap.length) (hcap : i.mmap.length < 2 ^ 63) :
    i.Close = Except.ok (i.mmap.take i.size) := by
  have h1 : int64 i.size = (i.size : Int) := int64_of_lt (by omega)
  have h2 : ¬ ((i.size : Int) < 0) := by omega
  have h3 : i.size - i.mmap.length = 0 := by omega
  simp only [index.Close, File.Truncate, h1, h2, if_false, Int.toNat_natCast, h3,
    List.replicate_zero, List.append_nil]

/-- After writing the entries `ws` to an index opened over the empty file, a read
returns the entry whose number is the selector cut to 32 bits (fields cut to their
widths). -/
theorem index.Read_after_writes (cap : Nat) (ws : List (Nat × Nat))
    (hcap : 12 * ws.length ≤ cap) (h0 : 0 < cap) (h63 : cap < 2 ^ 63) :
    ∃ i j, newIndex [] cap = Except.ok i ∧ i.writeAll ws = Except.ok j ∧
      j.size = 12 * ws.length ∧
      ∀ sel w, ws[j.selected sel]? = some w →
        j.Read sel = Except.ok (w.1 % 2 ^ 32, w.2 % 2 ^ 64) := by
  have ho := newIndex_ok [] cap h0 h63
  simp only [List.take_nil, List.length_nil, Nat.sub_zero, List.nil_append, Nat.zero_mod] at ho
  have hw := index.writeAll_ok ws { mmap := List.replicate cap (0 : Byte), size := 0 }
    (by simp only [List.length_replicate]; omega)
    (by simp only [List.length_replicate]; omega)
  simp only [Nat.zero_add, List.take_zero, List.nil_append] at hw
  refine ⟨_, _, ho, hw, rfl, ?_⟩
  intro sel w hsel
  have hlt : index.selected
      { mmap := encodeAll ws ++ List.drop (12 * ws.length) (List.replicate cap (0 : Byte)),
        size := 12 * ws.length } sel < ws.length := by
    by_contra hc
    rw [List.getElem?_eq_none (by omega)] at hsel
    exact Option.noConfusion hsel
  rw [index.Read_eq _ _ (by
    simp only [List.length_append, length_encodeAll, List.length_drop, List.length_replicate]
    omega)]
  have c : ¬ (12 * ws.length = 0 ∨ 12 * ws.length < 12 * index.selected
      { mmap := encodeAll ws ++ List.drop (12 * ws.length) (List.replicate cap (0 : Byte)),
        size := 12 * ws.length } sel + 12) := by omega
  simp only [c, if_false]
  rw [entryAt_encodeAll ws _ _ w hsel]

theorem getElem?_cons_replicate {α : Type} (n : Nat) (x y : α) (h : 0 < n) :
    (x :: List.replicate n y)[n]? = some y := by
  obtain ⟨m, rfl⟩ : ∃ m, n = m + 1 := ⟨n - 1, by omega⟩
  rw [List.getElem?_cons_succ, List.getElem?_replicate]
  simp

theorem index.selected_wrap (i : index) : i.selected (2 ^ 32) = 0 := by
  have h := i.selected_natCast (2 ^ 32)
  simpa using h

/-- The entry number wraps at `2 ^ 32`: with more than `2 ^ 32` entries written, reading
entry `2 ^ 32` returns entry 0. -/
theorem index.Read_wraps (n : Nat) (a b : Nat × Nat) (hn : 0 < n) (hcap : 12 * (n + 1) < 2 ^ 63)
    (ha1 : a.1 < 2 ^ 32) (ha2 : a.2 < 2 ^ 64) :
    ∃ i j, newIndex [] (12 * (n + 1)) = Except.ok i ∧
      i.writeAll (a :: List.replicate n b) = Except.ok j ∧
      j.Read (2 ^ 32) = Except.ok a ∧ (a :: List.replicate n b)[n]? = some b := by
  obtain ⟨i, j, h1, h2, _, h4⟩ := index.Read_after_writes (12 * (n + 1)) (a :: List.replicate n b)
    (by rw [List.length_cons, List.length_replicate]) (by omega) hcap
  refine ⟨i, j, h1, h2, ?_, getElem?_cons_replicate n a b hn⟩
  have := h4 (2 ^ 32) a (by rw [index.selected_wrap, List.getElem?_cons_zero])
  rw [this, Nat.mod_eq_of_lt ha1, Nat.mod_eq_of_lt ha2]

/-! ## Segment lemmas -/

theorem entryAt_append (pre m : List Byte) (k : Nat) (h : pre.length = 12 * k) :
    entryAt (pre ++ m) k = entryAt m 0 := by
  have h4 : 12 * k + 4 = pre.length + 4 := by omega
  simp only [entryAt, Nat.mul_zero, Nat.zero_add, List.drop_zero]
  rw [← h, List.drop_left, h, h4, List.drop_append]

theorem entryAt_written (pre rest : List Byte) (e : Nat × Nat) (k : Nat)
    (h : pre.length = 12 * k) :
    entryAt (pre ++ encodeEntry e ++ rest) k = (e.1 % 2 ^ 32, e.2 % 2 ^ 64) := by
  rw [List.append_assoc, entryAt_append pre _ k h]
  have := entryAt_encodeAll [e] rest 0 e rfl
  simpa [encodeAll] using this

theorem segment.Append_store (cd : Codec) (sg : segment) (r : Record) :
    (sg.Append cd r).2.store
      = (sg.store.Append (cd.marshal { r with offset := sg.nextOffset })).2.2 := by
  unfold segment.Append
  simp only []
  split <;> rfl

theorem segment.appendAll_content (cd : Codec) (sg : segment) (rs : List Record) :
    ∃ rest, (sg.appendAll cd rs).2.store.content = sg.store.content ++ rest := by
  induction rs generalizing sg with
  | nil => exact ⟨[], by simp [segment.appendAll]⟩
  | cons r rs ih =>
    obtain ⟨rest, hrest⟩ := ih (sg.Append cd r).2
    refine ⟨PutUint64 (cd.marshal { r with offset := sg.nextOffset }).length
      ++ cd.marshal { r with offset := sg.nextOffset } ++ rest, ?_⟩
    simp only [segment.appendAll]
    rw [hrest, segment.Append_store, store.content_Append]
    simp only [List.append_assoc]

theorem segment.Inv_new (B : Nat) (c : Config) (hB : B < 2 ^ 64) (hc0 : 0 < c.MaxIndexBytes)
    (hc : c.MaxIndexBytes < 2 ^ 63) :
    ∃ sg, newSegment [] [] B c = Except.ok sg ∧ sg.nextOffset = B ∧ sg.Inv B [] ∧
      sg.index.mmap.length = c.MaxIndexBytes ∧ sg.store.content = [] := by
  have ho := newIndex_ok [] c.MaxIndexBytes hc0 hc
  simp only [List.take_nil, List.length_nil, Nat.sub_zero, List.nil_append, Nat.zero_mod] at ho
  have hn : (B + 0 / entWidth) % 2 ^ 64 = B := by
    simp only [Nat.zero_div, Nat.add_zero]
    exact Nat.mod_eq_of_lt hB
  refine ⟨segment.mk (newStore []) (index.mk (List.replicate c.MaxIndexBytes 0) 0) B B c,
    ?_, rfl, ?_, ?_, rfl⟩
  · simp only [newSegment, ho, hn]
  · refine ⟨rfl, ?_, rfl, rfl, Nat.zero_le _, ?_⟩
    · simp only [List.length_nil, Nat.add_zero]
      exact (Nat.mod_eq_of_lt hB).symm
    · intro k p h
      simp at h
  · simp only [List.length_replicate]

theorem segment.Inv_Append (cd : Codec) (sg : segment) (B : Nat) (ps : List (List Byte))
    (r : Record) (hinv : sg.Inv B ps)
    (hroom : sg.index.size + 12 ≤ sg.index.mmap.length) (hcap : sg.index.mmap.length < 2 ^ 64)
    (hlen : (sg.Append cd r).2.store.content.length < 2 ^ 63) :
    (sg.Append cd r).1 = Except.ok ((B + ps.length) % 2 ^ 64) ∧
    (sg.Append cd r).2.Inv B (ps ++ [cd.marshal { r with offset := (B + ps.length) % 2 ^ 64 }]) ∧
    (sg.Append cd r).2.index.mmap.length = sg.index.mmap.length := by
  obtain ⟨hb, hnext, hsz, hisz, _, hfr⟩ := hinv
  rw [segment.Append_store, store.content_Append] at hlen
  simp only [List.length_append, length_PutUint64] at hlen
  have hw := index.Write_ok sg.index ((sg.nextOffset + 2 ^ 64 - sg.baseOffset) % 2 ^ 64)
    (sg.store.Append (cd.marshal { r with offset := sg.nextOffset })).2.1 hroom hcap
  have hA : sg.Append cd r = (Except.ok sg.nextOffset,
      { sg with
        store := (sg.store.Append (cd.marshal { r with offset := sg.nextOffset })).2.2,
        index :=
          { mmap := sg.index.mmap.take sg.index.size
              ++ encodeEntry ((sg.nextOffset + 2 ^ 64 - sg.baseOffset) % 2 ^ 64,
                  (sg.store.Append (cd.marshal { r with offset := sg.nextOffset })).2.1)
              ++ sg.index.mmap.drop (sg.index.size + 12),
            size := sg.index.size + 12 },
        nextOffset := (sg.nextOffset + 1) % 2 ^ 64 }) := by
    simp only [segment.Append, hw]
  have hta : (sg.index.mmap.take sg.index.size).length = sg.index.size := by
    rw [List.length_take]; omega
  have hml : (sg.index.mmap.take sg.index.size
      ++ encodeEntry ((sg.nextOffset + 2 ^ 64 - sg.baseOffset) % 2 ^ 64,
          (sg.store.Append (cd.marshal { r with offset := sg.nextOffset })).2.1)
      ++ sg.index.mmap.drop (sg.index.size + 12)).length = sg.index.mmap.length := by
    simp only [List.length_append, hta, length_encodeEntry, List.length_drop]
    omega
  rw [hA]
  rw [← hnext]
  refine ⟨rfl, ⟨hb, ?_, ?_, ?_, ?_, ?_⟩, hml⟩
  · simp only [List.length_append, List.length_singleton]
    rw [hnext]
    omega
  · exact store.size_Append_inv sg.store _ hsz (by rw [hsz]; omega)
  · simp only [List.length_append, List.length_singleton, hisz]
    omega
  · simp only [hml]
    omega
  · intro k q hq
    by_cases hk : k < ps.length
    · rw [List.getElem?_append_left hk] at hq
      obtain ⟨a, c, hc, he⟩ := hfr k q hq
      refine ⟨a, c ++ PutUint64 (cd.marshal { r with offset := sg.nextOffset }).length
        ++ cd.marshal { r with offset := sg.nextOffset }, ?_, ?_⟩
      · simp only [store.content_Append, hc, List.append_assoc]
      · rw [← he]
        simp only []
        rw [entryAt_congr _ sg.index.mmap sg.index.size k
          (by rw [List.append_assoc]; exact List.take_left' hta) (by omega)]
    · have hk2 : k = ps.length := by
        have := (List.getElem?_eq_some_iff.mp hq).1
        simp only [List.length_append, List.length_singleton] at this
        omega
      subst hk2
      rw [List.getElem?_append_right (Nat.le_refl _)] at hq
      simp only [Nat.sub_self, List.getElem?_cons_zero, Option.some.injEq] at hq
      subst hq
      refine ⟨sg.store.content, [], ?_, ?_⟩
      · simp only [store.content_Append, List.append_nil]
      · simp only []
        rw [entryAt_written _ _ _ ps.length (by rw [hta, hisz])]
        simp only [store.pos_Append_eq, hsz]
        exact Nat.mod_eq_of_lt (by omega)

/-- Reading offset `B + k` in a segment returns the payload whose number is `k` cut to
32 bits, when there is one. -/
theorem segment.Read_of_Inv (cd : Codec) (sg : segment) (B : Nat) (ps : List (List Byte))
    (k : Nat) (p : List Byte) (hinv : sg.Inv B ps) (hB : B < 2 ^ 64) (hk : k < 2 ^ 63)
    (hlen : sg.store.content.length < 2 ^ 63) (hp : ps[k % 2 ^ 32]? = some p) :
    (sg.Read cd ((B + k) % 2 ^ 64)).1 =
      match cd.unmarshal p with
      | none => Except.error Err.corrupt
      | some rec => Except.ok rec := by
  obtain ⟨hb, _, _, hisz, hile, hfr⟩ := hinv
  have hrel : (((B + k) % 2 ^ 64) + 2 ^ 64 - sg.baseOffset) % 2 ^ 64 = k := by
    rw [hb]; omega
  have he : k % 2 ^ 32 < ps.length := (List.getElem?_eq_some_iff.mp hp).1
  have hr : sg.index.Read (k : Int) = Except.ok (entryAt sg.index.mmap (k % 2 ^ 32)) := by
    rw [index.Read_eq _ _ hile, index.selected_natCast]
    have c : ¬ (sg.index.size = 0 ∨ sg.index.size < 12 * (k % 2 ^ 32) + 12) := by omega
    rw [if_neg c]
  obtain ⟨a, c, hc, hpos⟩ := hfr _ p hp
  have hs := store.Read_frame sg.store a p c hc hlen
  rw [← hpos] at hs
  simp only [segment.Read, hrel, int64_of_lt hk, hr, hs]
  split <;> rfl

theorem segment.appendAll_spec (cd : Codec) (sg : segment) (B : Nat) (ps : List (List Byte))
    (rs : List Record) (hinv : sg.Inv B ps)
    (hroom : 12 * (ps.length + rs.length) ≤ sg.index.mmap.length)
    (hcap : sg.index.mmap.length < 2 ^ 64)
    (hlen : (sg.appendAll cd rs).2.store.content.length < 2 ^ 63) :
    (sg.appendAll cd rs).1
      = (List.range' ps.length rs.length).map (fun i => Except.ok ((B + i) % 2 ^ 64)) ∧
    (sg.appendAll cd rs).2.Inv B (ps ++ payloads cd B ps.length rs) := by
  induction rs generalizing sg ps with
  | nil =>
    simp only [segment.appendAll, List.length_nil, List.range'_zero, List.map_nil, payloads,
      List.append_nil, true_and]
    exact hinv
  | cons r rs ih =>
    simp only [segment.appendAll] at hlen ⊢
    obtain ⟨rest, hrest⟩ := segment.appendAll_content cd (sg.Append cd r).2 rs
    have hl1 : (sg.Append cd r).2.store.content.length < 2 ^ 63 := by
      have := congrArg List.length hrest
      rw [List.length_append] at this
      omega
    simp only [List.length_cons] at hroom
    obtain ⟨h1, h2, h3⟩ := segment.Inv_Append cd sg B ps r hinv
      (by rw [hinv.2.2.2.1]; omega) hcap hl1
    have := ih (sg.Append cd r).2 (ps ++ [cd.marshal { r with offset := (B + ps.length) % 2 ^ 64 }])
      h2 (by rw [h3]; simp only [List.length_append, List.length_singleton]; omega)
      (by rw [h3]; exact hcap) hlen
    simp only [List.length_append, List.length_singleton, List.append_assoc,
      List.singleton_append] at this
    refine ⟨?_, ?_⟩
    · rw [h1, this.1]
      rfl
    · simpa only [payloads] using this.2

theorem payloads_getElem? (cd : Codec) (B n : Nat) (rs : List Record) (k : Nat) (r : Record)
    (h : rs[k]? = some r) :
    (payloads cd B n rs)[k]? = some (cd.marshal { r with offset := (B + (n + k)) % 2 ^ 64 }) := by
  induction rs generalizing n k with
  | nil => simp at h
  | cons v vs ih =>
    cases k with
    | zero =>
      simp only [List.getElem?_cons_zero, Option.some.injEq] at h
      subst h
      simp only [payloads, List.getElem?_cons_zero, Nat.add_zero]
    | succ k =>
      simp only [List.getElem?_cons_succ] at h
      simp only [payloads, List.getElem?_cons_succ]
      rw [ih (n + 1) k h]
      congr 4
      omega

theorem segment.appendAll_length_le (cd : Codec) (sg : segment) (rs : List Record) (L : Nat)
    (hL : ∀ r ∈ rs, ∀ o, (cd.marshal { r with offset := o }).length ≤ L) :
    (sg.appendAll cd rs).2.store.content.length
      ≤ sg.store.content.length + rs.length * (8 + L) := by
  induction rs generalizing sg with
  | nil => simp [segment.appendAll]
  | cons r rs ih =>
    have h1 := ih (sg.Append cd r).2 (fun x hx o => hL x (List.mem_cons_of_mem _ hx) o)
    have h2 := hL r (List.mem_cons_self _ _) sg.nextOffset
    rw [segment.Append_store, store.content_Append] at h1
    simp only [List.length_append, length_PutUint64] at h1
    simp only [segment.appendAll, List.length_cons]
    have h3 : (rs.length + 1) * (8 + L) = rs.length * (8 + L) + (8 + L) := by ring
    omega

/-- The segment opened over an empty directory and the records `rs` appended to it: the
next offset starts at `B`, the appends return `B`, `B + 1`, ..., and reading offset
`B + k` returns the record whose number is `k` cut to 32 bits. -/
theorem segment.read_after_appends (cd : Codec) (B : Nat) (c : Config) (rs : List Record)
    (hB : B < 2 ^ 64) (hc0 : 0 < c.MaxIndexBytes) (hc : c.MaxIndexBytes < 2 ^ 63)
    (hroom : 12 * rs.length ≤ c.MaxIndexBytes)
    (hlen : ∀ sg, newSegment [] [] B c = Except.ok sg →
      (sg.appendAll cd rs).2.store.content.length < 2 ^ 63) :
    ∃ sg, newSegment [] [] B c = Except.ok sg ∧ sg.nextOffset = B ∧
      (sg.appendAll cd rs).1
        = (List.range' 0 rs.length).map (fun i => Except.ok ((B + i) % 2 ^ 64)) ∧
      ∀ k r, k < 2 ^ 63 → rs[k % 2 ^ 32]? = some r →
        ((sg.appendAll cd rs).2.Read cd ((B + k) % 2 ^ 64)).1 =
          match cd.unmarshal (cd.marshal { r with offset := (B + k % 2 ^ 32) % 2 ^ 64 }) with
          | none => Except.error Err.corrupt
          | some rec => Except.ok rec := by
  obtain ⟨sg, h1, h2, h3, h4, _⟩ := segment.Inv_new B c hB hc0 hc
  have hl := hlen sg h1
  obtain ⟨h5, h6⟩ := segment.appendAll_spec cd sg B [] rs h3
    (by rw [h4]; simpa using hroom) (by rw [h4]; omega) hl
  refine ⟨sg, h1, h2, h5, ?_⟩
  intro k r hk hr
  have hp := payloads_getElem? cd B 0 rs (k % 2 ^ 32) r hr
  rw [Nat.zero_add] at hp
  exact segment.Read_of_Inv cd _ B _ k _ h6 hB hk hl (by simpa using hp)

theorem offsetCodec_roundtrip (r : Record) (h : r.offset < 2 ^ 64) :
    offsetCodec.unmarshal (offsetCodec.marshal r) = some r := by
  have h1 : ¬ ((PutUint64 r.offset ++ r.value).length < 8) := by
    rw [List.length_append, length_PutUint64]; omega
  have h2 : (PutUint64 r.offset ++ r.value).take 8 = PutUint64 r.offset :=
    List.take_left' (length_PutUint64 _)
  have h3 : (PutUint64 r.offset ++ r.value).drop 8 = r.value :=
    List.drop_left' (length_PutUint64 _)
  simp only [offsetCodec, h1, if_false, h2, h3, Uint64_PutUint64, Nat.mod_eq_of_lt h]

/-- The relative offset wraps at `2 ^ 32`: in a segment that holds more than `2 ^ 32`
records, reading offset `B + 2 ^ 32` returns the first record. -/
theorem segment.Read_wraps_offset (B M n L : Nat) (r0 r1 : Record) (hn : 0 < n)
    (hB : B + n < 2 ^ 64) (hn32 : 2 ^ 32 ≤ n) (hcap : 12 * (n + 1) < 2 ^ 63)
    (h0 : r0.value.length ≤ L) (h1 : r1.value.length ≤ L)
    (hbound : (n + 1) * (8 + (8 + L)) < 2 ^ 63) :
    ∃ sg, newSegment [] [] B ⟨M, 12 * (n + 1)⟩ = Except.ok sg ∧ sg.nextOffset = B ∧
      (∀ i, i ≤ n →
        (sg.appendAll offsetCodec (r0 :: List.replicate n r1)).1[i]? = some (Except.ok (B + i))) ∧
      ((sg.appendAll offsetCodec (r0 :: List.replicate n r1)).2.Read offsetCodec
        (B + 2 ^ 32)).1 = Except.ok { r0 with offset := B } ∧
      (r0 :: List.replicate n r1)[n]? = some r1 := by
  have hlenrs : (r0 :: List.replicate n r1).length = n + 1 := by
    rw [List.length_cons, List.length_replicate]
  have hL : ∀ r ∈ r0 :: List.replicate n r1, ∀ o,
      (offsetCodec.marshal { r with offset := o }).length ≤ 8 + L := by
    intro r hr o
    have hv : r.value.length ≤ L := by
      rcases List.mem_cons.mp hr with h | h
      · rw [h]; exact h0
      · rw [List.eq_of_mem_replicate h]; exact h1
    simp only [offsetCodec, List.length_append, length_PutUint64]
    omega
  obtain ⟨sg, hs1, hs2, hs3, hs4⟩ := segment.read_after_appends offsetCodec B
    ⟨M, 12 * (n + 1)⟩ (r0 :: List.replicate n r1) (by omega) (by simp only []; omega) hcap
    (by rw [hlenrs])
    (by
      intro sg hsg
      obtain ⟨sg1, e1, _, _, _, e5⟩ := segment.Inv_new B ⟨M, 12 * (n + 1)⟩ (by omega)
        (by simp only []; omega) hcap
      rw [e1] at hsg
      cases hsg
      have := segment.appendAll_length_le offsetCodec sg (r0 :: List.replicate n r1) (8 + L) hL
      rw [e5, hlenrs] at this
      simp only [List.length_nil, Nat.zero_add] at this
      omega)
  refine ⟨sg, hs1, hs2, ?_, ?_, getElem?_cons_replicate n r0 r1 hn⟩
  · intro i hi
    rw [hs3, hlenrs, List.getElem?_map, List.getElem?_range' 0 1 (by omega : i < n + 1)]
    simp only [Option.map_some', Nat.zero_add, Nat.one_mul]
    rw [Nat.mod_eq_of_lt (by omega)]
  · have h := hs4 (2 ^ 32) r0 (by norm_num) (by
      rw [Nat.mod_self, List.getElem?_cons_zero])
    rw [Nat.mod_self, Nat.add_zero, Nat.mod_eq_of_lt (by omega : B < 2 ^ 64),
      Nat.mod_eq_of_lt (by omega : B + 2 ^ 32 < 2 ^ 64),
      offsetCodec_roundtrip _ (by simp only []; omega)] at h
    exact h

/-- Index ordering up to `2 ^ 32` entries: after writing the (typed) entries `ws` to an
index opened over the empty file, entry `k` reads back as the `k`-th pair written and
the selector `-1` as the last one. -/
theorem index.ordering_upto (cap : Nat) (ws : List (Nat × Nat))
    (hcap : 12 * ws.length ≤ cap) (h0 : 0 < cap) (h63 : cap < 2 ^ 63) (hN : ws.length ≤ 2 ^ 32)
    (hty : ∀ (k : Nat) (w : Nat × Nat), ws[k]? = some w → w.1 < 2 ^ 32 ∧ w.2 < 2 ^ 64) :
    ∃ i j, newIndex [] cap = Except.ok i ∧ i.writeAll ws = Except.ok j ∧
      (∀ (k : Nat) (w : Nat × Nat), ws[k]? = some w → j.Read (k : Int) = Except.ok w) ∧
      (∀ w, ws[ws.length - 1]? = some w → j.Read (-1) = Except.ok w) := by
  obtain ⟨i, j, h1, h2, h3, h4⟩ := index.Read_after_writes cap ws hcap h0 h63
  refine ⟨i, j, h1, h2, ?_, ?_⟩
  · intro k w hk
    have hlt : k < ws.length := (List.getElem?_eq_some_iff.mp hk).1
    have hsel : j.selected (k : Int) = k := by
      rw [index.selected_natCast]
      exact Nat.mod_eq_of_lt (by omega)
    have := h4 (k : Int) w (by rw [hsel]; exact hk)
    rw [this, Nat.mod_eq_of_lt (hty k w hk).1, Nat.mod_eq_of_lt (hty k w hk).2]
  · intro w hw
    have hlt : ws.length - 1 < ws.length := (List.getElem?_eq_some_iff.mp hw).1
    have hsel : j.selected (-1) = ws.length - 1 := by
      have hd : 12 * ws.length / 12 = ws.length := Nat.mul_div_cancel_left _ (by norm_num)
      simp only [index.selected, if_true, h3, entWidth, offWidth, posWidth, hd]
      omega
    have := h4 (-1) w (by rw [hsel]; exact hw)
    rw [this, Nat.mod_eq_of_lt (hty _ w hw).1, Nat.mod_eq_of_lt (hty _ w hw).2]

theorem store.size_appendAll_inv (s : store) (qs : List (List Byte))
    (hs : s.size = s.content.length) (hlen : (s.appendAll qs).content.length < 2 ^ 64) :
    (s.appendAll qs).size = (s.appendAll qs).content.length := by
  induction qs generalizing s with
  | nil => exact hs
  | cons q qs ih =>
    simp only [store.appendAll] at hlen ⊢
    obtain ⟨rest, hrest⟩ := store.content_appendAll (s.Append q).2.2 qs
    have hl := congrArg List.length hrest
    rw [store.content_Append] at hl
    simp only [List.length_append, length_PutUint64] at hl
    exact ih (s.Append q).2.2 (store.size_Append_inv s q hs (by omega)) hlen

theorem store.content_newStore_Close (s : store) : (newStore s.Close).content = s.content := by
  simp only [newStore, store.Close, store.content, store.flush, List.append_nil]

theorem newSegment_empty (B : Nat) (c : Config) (hc0 : 0 < c.MaxIndexBytes)
    (hc : c.MaxIndexBytes < 2 ^ 63) :
    newSegment [] [] B c = Except.ok
      (segment.mk (newStore []) (index.mk (List.replicate c.MaxIndexBytes 0) 0) B
        ((B + 0 / entWidth) % 2 ^ 64) c) := by
  have ho := newIndex_ok [] c.MaxIndexBytes hc0 hc
  simp only [List.take_nil, List.length_nil, Nat.sub_zero, List.nil_append, Nat.zero_mod] at ho
  simp only [newSegment, ho]

theorem segment.Append_ok (cd : Codec) (sg : segment) (r : Record)
    (hroom : sg.index.size + 12 ≤ sg.index.mmap.length) (hcap : sg.index.mmap.length < 2 ^ 64) :
    (sg.Append cd r).1 = Except.ok sg.nextOffset ∧
    (sg.Append cd r).2.index.size = sg.index.size + 12 ∧
    (sg.Append cd r).2.index.mmap.length = sg.index.mmap.length ∧
    (sg.Append cd r).2.config = sg.config := by
  have hw := index.Write_ok sg.index ((sg.nextOffset + 2 ^ 64 - sg.baseOffset) % 2 ^ 64)
    (sg.store.Append (cd.marshal { r with offset := sg.nextOffset })).2.1 hroom hcap
  have hta : (sg.index.mmap.take sg.index.size).length = sg.index.size := by
    rw [List.length_take]; omega
  have hml : (sg.index.mmap.take sg.index.size
      ++ encodeEntry ((sg.nextOffset + 2 ^ 64 - sg.baseOffset) % 2 ^ 64,
          (sg.store.Append (cd.marshal { r with offset := sg.nextOffset })).2.1)
      ++ sg.index.mmap.drop (sg.index.size + 12)).length = sg.index.mmap.length := by
    rw [List.length_append, List.length_append, hta, length_encodeEntry, List.length_drop]
    omega
  simp only [segment.Append, hw, hml, and_self]

theorem segment.Append_eof (cd : Codec) (sg : segment) (r : Record)
    (hfull : sg.index.mmap.length < sg.index.size + 12) (hs : sg.index.size + 12 < 2 ^ 64) :
    (sg.Append cd r).1 = Except.error Err.eof ∧
    (sg.Append cd r).2.index = sg.index ∧
    (sg.Append cd r).2.config = sg.config := by
  have hw := index.Write_eof sg.index ((sg.nextOffset + 2 ^ 64 - sg.baseOffset) % 2 ^ 64)
    (sg.store.Append (cd.marshal { r with offset := sg.nextOffset })).2.1 hfull hs
  simp only [segment.Append, hw, and_self]

theorem segment.appendAll_index (cd : Codec) (sg : segment) (rs : List Record)
    (hroom : sg.index.size + 12 * rs.length ≤ sg.index.mmap.length)
    (hcap : sg.index.mmap.length < 2 ^ 64) :
    (∀ res ∈ (sg.appendAll cd rs).1, ∃ o, res = Except.ok o) ∧
    (sg.appendAll cd rs).1.length = rs.length ∧
    (sg.appendAll cd rs).2.index.size = sg.index.size + 12 * rs.length ∧
    (sg.appendAll cd rs).2.index.mmap.length = sg.index.mmap.length ∧
    (sg.appendAll cd rs).2.config = sg.config := by
  induction rs generalizing sg with
  | nil => simp [segment.appendAll]
  | cons r rs ih =>
    simp only [List.length_cons] at hroom
    obtain ⟨a1, a2, a3, a4⟩ := segment.Append_ok cd sg r (by omega) hcap
    obtain ⟨b1, b2, b3, b4, b5⟩ := ih (sg.Append cd r).2 (by rw [a2, a3]; omega)
      (by rw [a3]; exact hcap)
    simp only [segment.appendAll, List.length_cons, List.mem_cons]
    refine ⟨?_, by rw [b2], by rw [b3, a2]; omega, by rw [b4, a3], by rw [b5, a4]⟩
    intro res hres
    rcases hres with h | h
    · exact ⟨sg.nextOffset, by rw [h, a1]⟩
    · exact b1 res h

theorem index.Write_size (i j : index) (off pos : Nat) (h : i.Write off pos = Except.ok j) :
    j.size = (i.size + entWidth) % 2 ^ 64 ∧ (i.size + entWidth) % 2 ^ 64 ≤ i.mmap.length := by
  unfold index.Write at h
  split at h
  · exact Except.noConfusion h
  · rename_i hg
    split at h
    · exact Except.noConfusion h
    · split at h
      · exact Except.noConfusion h
      · simp only [Except.ok.injEq] at h
        subst h
        exact ⟨rfl, by omega⟩

theorem index.afterWrite_ok (i j : index) (off pos : Nat) (h : i.Write off pos = Except.ok j) :
    i.afterWrite off pos = j := by
  simp only [index.afterWrite, h]

theorem index.afterWrite_error (i : index) (off pos : Nat) (e : Err)
    (h : i.Write off pos = Except.error e) : i.afterWrite off pos = i := by
  simp only [index.afterWrite, h]

/-- The capacity invariant where it holds: an index opened over a file that is not longer
than the maximum has its size within the mapped region, and a write, successful or
not, keeps it so. -/
theorem index.capacity_inv (f : List Byte) (max : Nat) (i : index) (off pos : Nat)
    (hf : f.length ≤ max) (h0 : 0 < max) (hmax : max < 2 ^ 63) (hi : i.size ≤ i.mmap.length)
    (hcap : i.mmap.length < 2 ^ 63) :
    (∃ j, newIndex f max = Except.ok j ∧ j.size ≤ j.mmap.length) ∧
    (i.afterWrite off pos).size ≤ (i.afterWrite off pos).mmap.length := by
  refine ⟨⟨_, newIndex_ok f max h0 hmax, ?_⟩, ?_⟩
  · simp only [List.length_append, List.length_take, List.length_replicate]
    have : f.length % 2 ^ 64 = f.length := Nat.mod_eq_of_lt (by omega)
    omega
  · by_cases h : i.size + 12 ≤ i.mmap.length
    · rw [index.afterWrite_ok i _ off pos (i.Write_ok off pos h (by omega))]
      simp only [List.length_append, List.length_take, length_encodeEntry, List.length_drop]
      omega
    · rw [index.afterWrite_error i off pos Err.eof (i.Write_eof off pos (by omega) (by omega))]
      exact hi

/-! ## Claims -/

/-- C1: store round trip.  On a store whose size counter is the length of its logical
content (as after `newStore`), the position returned by `Append p` reads back exactly
`p`, right away (`qs = []`, nothing flushed) and after any further appends `qs`, as long
as the file stays within the offsets a file can have (below `2 ^ 63`). -/
theorem store_round_trip (s : store) (p : List Byte) (qs : List (List Byte))
    (hs : s.size = s.content.length)
    (hlen : ((s.Append p).2.2.appendAll qs).content.length < 2 ^ 63) :
    (((s.Append p).2.2.appendAll qs).Read (s.Append p).2.1).1 = Except.ok p := by
  obtain ⟨rest, hrest⟩ := store.content_appendAll (s.Append p).2.2 qs
  rw [store.content_Append] at hrest
  rw [store.pos_Append_eq, hs]
  exact store.Read_frame _ s.content p rest hrest hlen

/-- C1 (witness): a store over a three-byte file, one append and two further appends. -/
theorem store_round_trip_witness :
    (newStore [1, 2, 3]).size = (newStore [1, 2, 3]).content.length ∧
    ((((newStore [1, 2, 3]).Append [7, 8, 9]).2.2.appendAll [[4], [5, 6]]).Read
      ((newStore [1, 2, 3]).Append [7, 8, 9]).2.1).1 = Except.ok [7, 8, 9] :=
  ⟨by decide, store_round_trip (newStore [1, 2, 3]) [7, 8, 9] [[4], [5, 6]] (by decide)
    (by decide)⟩

/-- C2 (failing input): on an index opened over the empty file with room for
`2 ^ 32 + 1` entries, after writing `(7, 9)` and then `2 ^ 32` times `(0, 0)`, all
successfully, reading entry `2 ^ 32` returns `(7, 9)`, the entry written first, although
the entry written at that place is `(0, 0)`. -/
theorem index_ordering_wraps :
    ∃ i j, newIndex [] (12 * (2 ^ 32 + 1)) = Except.ok i ∧
      i.writeAll ((7, 9) :: List.replicate (2 ^ 32) (0, 0)) = Except.ok j ∧
      j.Read (2 ^ 32) = Except.ok (7, 9) ∧
      ((7, 9) :: List.replicate (2 ^ 32) ((0, 0) : Nat × Nat))[2 ^ 32]? = some (0, 0) :=
  index.Read_wraps (2 ^ 32) (7, 9) (0, 0) (by norm_num) (by norm_num) (by norm_num)
    (by norm_num)

/-- C3 (counterexample): for `K = 0` the maximum is 0 bytes, and the index does not open
over the empty file: mapping a file of length zero is an invalid argument, so there is
no index on which a first write could fail with `io.EOF`. -/
theorem index_capacity_counterexample :
    newIndex [] (12 * 0) = Except.error Err.invalid ∧
    ¬ ∃ i, newIndex [] (12 * 0) = Except.ok i := by
  have h : newIndex [] (12 * 0) = Except.error Err.invalid := newIndex_zero []
  refine ⟨h, ?_⟩
  rintro ⟨i, hi⟩
  rw [h] at hi
  exact Except.noConfusion hi

/-- C3 (amended): index capacity enforcement.  For `K ≥ 1` and a maximum of `12 * K`
bytes (a valid file length), the index opens over the empty file, any `K` writes all
succeed and leave the size at exactly `12 * K`, and one more write, whatever its entry,
fails with `io.EOF`. -/
theorem index_capacity (K : Nat) (ws : List (Nat × Nat)) (hK0 : 0 < K) (hK : 12 * K < 2 ^ 63)
    (hws : ws.length = K) :
    ∃ i j, newIndex [] (12 * K) = Except.ok i ∧ i.writeAll ws = Except.ok j ∧
      j.size = 12 * K ∧ ∀ off pos, j.Write off pos = Except.error Err.eof := by
  subst hws
  have ho := newIndex_ok [] (12 * ws.length) (by omega) hK
  simp only [List.take_nil, List.length_nil, Nat.sub_zero, List.nil_append, Nat.zero_mod] at ho
  have hw := index.writeAll_ok ws
    { mmap := List.replicate (12 * ws.length) (0 : Byte), size := 0 }
    (by simp only [List.length_replicate]; omega)
    (by simp only [List.length_replicate]; omega)
  refine ⟨_, _, ho, hw, by simp only []; omega, ?_⟩
  intro off pos
  apply index.Write_eof
  · simp only [List.length_append, List.length_take, length_encodeAll, List.length_drop,
      List.length_replicate]
    omega
  · simp only []
    omega

/-- C3 (witness): three entries in an index of 36 bytes. -/
theorem index_capacity_witness :
    ∃ i j, newIndex [] (12 * 3) = Except.ok i ∧
      i.writeAll [(0, 0), (1, 19), (2, 38)] = Except.ok j ∧
      j.size = 12 * 3 ∧ ∀ off pos, j.Write off pos = Except.error Err.eof :=
  index_capacity 3 [(0, 0), (1, 19), (2, 38)] (by decide) (by decide) (by decide)

/-- C4: return values of `store.Append`.  When the size counter does not overflow
`uint64`, `Append p` returns the size before the write as position and `8 + len(p)` as
the number of bytes written, and the size afterwards is the old size plus `8 + len(p)`. -/
theorem store_Append_returns (s : store) (p : List Byte)
    (h : s.size + 8 + p.length < 2 ^ 64) :
    (s.Append p).2.1 = s.size ∧ (s.Append p).1 = 8 + p.length ∧
      (s.Append p).2.2.size = s.size + 8 + p.length := by
  refine ⟨rfl, ?_, ?_⟩
  · rw [store.written_Append_eq]
    simp only [lenWidth]
    omega
  · rw [store.size_Append_eq]
    simp only [lenWidth]
    omega

/-- C4 (witness): appending three bytes to a store over a three-byte file. -/
theorem store_Append_returns_witness :
    ((newStore [1, 2, 3]).Append [7, 8, 9]).2.1 = 3 ∧
    ((newStore [1, 2, 3]).Append [7, 8, 9]).1 = 11 ∧
    ((newStore [1, 2, 3]).Append [7, 8, 9]).2.2.size = 14 :=
  store_Append_returns (newStore [1, 2, 3]) [7, 8, 9] (by decide)

/-- C5 (failing input): on an index holding the single entry `(7, 9)`, the selector
`2 ^ 32` has `2 ^ 32 * 12 + 12` beyond the size 12, yet the read succeeds and returns
entry 0. -/
theorem index_Read_truncates_selector :
    newIndex [] 12 = Except.ok (index.mk (List.replicate 12 0) 0) ∧
    (index.mk (List.replicate 12 0) 0).Write 7 9
      = Except.ok (index.mk (PutUint32 7 ++ PutUint64 9) 12) ∧
    12 < 2 ^ 32 * 12 + 12 ∧
    (index.mk (PutUint32 7 ++ PutUint64 9) 12).Read (2 ^ 32) = Except.ok (7, 9) := by
  refine ⟨by decide, by decide, by decide, by decide⟩

/-- C6 (failing input): a segment of base offset 16 opened over an empty directory, with
room for `2 ^ 32 + 1` index entries, to which the record with payload `[1]` and then
`2 ^ 32` records with payload `[2]` are appended.  The next offset starts at 16 and
append number `i` returns `16 + i`, yet reading offset `16 + 2 ^ 32` returns the payload
`[1]` of the first record, although the record appended at that place has payload `[2]`. -/
theorem segment_offsets_wrap :
    ∃ sg, newSegment [] [] 16 ⟨2 ^ 62, 12 * (2 ^ 32 + 1)⟩ = Except.ok sg ∧ sg.nextOffset = 16 ∧
      (∀ i, i ≤ 2 ^ 32 →
        (sg.appendAll offsetCodec (⟨[1], 0⟩ :: List.replicate (2 ^ 32) ⟨[2], 0⟩)).1[i]?
          = some (Except.ok (16 + i))) ∧
      ((sg.appendAll offsetCodec (⟨[1], 0⟩ :: List.replicate (2 ^ 32) ⟨[2], 0⟩)).2.Read
        offsetCodec (16 + 2 ^ 32)).1 = Except.ok { (⟨[1], 0⟩ : Record) with offset := 16 } ∧
      ((⟨[1], 0⟩ : Record) :: List.replicate (2 ^ 32) ⟨[2], 0⟩)[2 ^ 32]? = some ⟨[2], 0⟩ :=
  segment.Read_wraps_offset 16 (2 ^ 62) (2 ^ 32) 1 ⟨[1], 0⟩ ⟨[2], 0⟩ (by norm_num) (by norm_num)
    (by norm_num) (by norm_num) (by decide) (by decide) (by norm_num)

/-- C7: on-disk frame layout.  Whatever the store, the file after `Append p` and a flush
is the file after a flush before the append, followed by the eight bytes of `len(p)`,
most significant first, followed by `p`; this holds for the flush itself and for the
flush done by `Read`, `ReadAt` and `Close`. -/
theorem store_Append_layout (s : store) (p : List Byte) (pos n : Nat) (off : Int) :
    (PutUint64 p.length).length = 8 ∧
    Uint64 (PutUint64 p.length) = p.length % 2 ^ 64 ∧
    (s.Append p).2.2.flush.file = s.flush.file ++ PutUint64 p.length ++ p ∧
    ((s.Append p).2.2.Read pos).2.file = s.flush.file ++ PutUint64 p.length ++ p ∧
    ((s.Append p).2.2.ReadAt n off).2.file = s.flush.file ++ PutUint64 p.length ++ p ∧
    (s.Append p).2.2.Close = s.flush.file ++ PutUint64 p.length ++ p := by
  have h : (s.Append p).2.2.flush.file = s.flush.file ++ PutUint64 p.length ++ p := by
    rw [store.content_flush, store.content_flush, store.content_Append]
  refine ⟨rfl, Uint64_PutUint64 _, h, ?_, h, h⟩
  rw [store.Read_state]
  exact h

/-- C8: postcondition and frame of `index.Write`.  With room for one more entry, the
write succeeds, the size grows by 12, the four bytes at the old size are the big-endian
offset and the eight bytes after them the big-endian position, no other mapped byte
changes, and every entry below the old size reads back as before. -/
theorem index_Write_frame (i : index) (off pos : Nat) (h : i.size + 12 ≤ i.mmap.length)
    (hcap : i.mmap.length < 2 ^ 64) :
    ∃ j, i.Write off pos = Except.ok j ∧ j.size = i.size + 12 ∧
      j.mmap.length = i.mmap.length ∧
      slice j.mmap i.size (i.size + 4) = Except.ok (PutUint32 off) ∧
      slice j.mmap (i.size + 4) (i.size + 12) = Except.ok (PutUint64 pos) ∧
      (∀ n, n < i.size ∨ i.size + 12 ≤ n → j.mmap[n]? = i.mmap[n]?) ∧
      (∀ k : Nat, k < i.size / 12 → j.Read (k : Int) = i.Read (k : Int)) := by
  have hw := i.Write_ok off pos h hcap
  have hta : (i.mmap.take i.size).length = i.size := by
    rw [List.length_take]; omega
  have hlen : (i.mmap.take i.size ++ encodeEntry (off, pos) ++ i.mmap.drop (i.size + 12)).length
      = i.mmap.length := by
    simp only [List.length_append, List.length_take, length_encodeEntry, List.length_drop]
    omega
  have htake : (i.mmap.take i.size ++ encodeEntry (off, pos) ++ i.mmap.drop (i.size + 12)).take
      i.size = i.mmap.take i.size := by
    rw [List.append_assoc]
    exact List.take_left' hta
  refine ⟨_, hw, rfl, hlen, ?_, ?_, ?_, ?_⟩
  · have c : i.size ≤ i.size + 4 ∧ i.size + 4 ≤
        (i.mmap.take i.size ++ encodeEntry (off, pos) ++ i.mmap.drop (i.size + 12)).length := by
      rw [hlen]; omega
    have d : (i.mmap.take i.size ++ encodeEntry (off, pos) ++ i.mmap.drop (i.size + 12)).drop
        i.size = PutUint32 off ++ (PutUint64 pos ++ i.mmap.drop (i.size + 12)) := by
      rw [List.append_assoc, List.drop_left' hta, encodeEntry, List.append_assoc]
    have a : i.size + 4 - i.size = 4 := by omega
    simp only [slice, c, and_self, if_true, d, a]
    rw [List.take_left' (length_PutUint32 off)]
  · have c : i.size + 4 ≤ i.size + 12 ∧ i.size + 12 ≤
        (i.mmap.take i.size ++ encodeEntry (off, pos) ++ i.mmap.drop (i.size + 12)).length := by
      rw [hlen]; omega
    have hl4 : (i.mmap.take i.size ++ PutUint32 off).length = i.size + 4 := by
      rw [List.length_append, hta, length_PutUint32]
    have d : (i.mmap.take i.size ++ encodeEntry (off, pos) ++ i.mmap.drop (i.size + 12)).drop
        (i.size + 4) = PutUint64 pos ++ i.mmap.drop (i.size + 12) := by
      have e : i.mmap.take i.size ++ encodeEntry (off, pos) ++ i.mmap.drop (i.size + 12)
          = (i.mmap.take i.size ++ PutUint32 off)
            ++ (PutUint64 pos ++ i.mmap.drop (i.size + 12)) := by
        simp only [encodeEntry, List.append_assoc]
      rw [e, List.drop_left' hl4]
    have a : i.size + 12 - (i.size + 4) = 8 := by omega
    simp only [slice, c, and_self, if_true, d, a]
    rw [List.take_left' (length_PutUint64 pos)]
  · intro n hn
    rcases hn with hn | hn
    · rw [List.append_assoc, List.getElem?_append_left (by omega), List.getElem?_take_of_lt hn]
    · have hl : (i.mmap.take i.size ++ encodeEntry (off, pos)).length = i.size + 12 := by
        rw [List.length_append, hta, length_encodeEntry]
      rw [List.getElem?_append_right (by omega), hl, List.getElem?_drop]
      congr 1
      omega
  · intro k hk
    have hk1 : 12 * k + 12 ≤ i.size := by omega
    exact index.Read_congr i _ k i.size (by omega) (by simp only [hlen]; omega) htake
      hk1 hk1 (by simp only []; omega)

/-- C8 (witness): a second entry written to an index of 24 bytes that holds one. -/
theorem index_Write_frame_witness :
    ∃ j, (index.mk (PutUint32 5 ++ PutUint64 6 ++ List.replicate 12 0) 12).Write 7 9
        = Except.ok j ∧
      j.size = 12 + 12 ∧
      j.mmap.length = (PutUint32 5 ++ PutUint64 6 ++ List.replicate 12 (0 : Byte)).length ∧
      slice j.mmap 12 (12 + 4) = Except.ok (PutUint32 7) ∧
      slice j.mmap (12 + 4) (12 + 12) = Except.ok (PutUint64 9) ∧
      (∀ n, n < 12 ∨ 12 + 12 ≤ n →
        j.mmap[n]? = (PutUint32 5 ++ PutUint64 6 ++ List.replicate 12 (0 : Byte))[n]?) ∧
      (∀ k : Nat, k < 12 / 12 → j.Read (k : Int)
        = (index.mk (PutUint32 5 ++ PutUint64 6 ++ List.replicate 12 0) 12).Read (k : Int)) :=
  index_Write_frame (index.mk (PutUint32 5 ++ PutUint64 6 ++ List.replicate 12 0) 12) 7 9
    (by decide) (by decide)

/-- C9 (counterexample): on the empty store, reading at position `2 ^ 63`, which is past
the end, fails with the negative-offset error and not with `io.EOF`. -/
theorem store_Read_past_end_counterexample :
    (newStore []).size ≤ 2 ^ 63 ∧
    ((newStore []).Read (2 ^ 63)).1 = Except.error Err.invalid ∧
    ((newStore []).Read (2 ^ 63)).1 ≠ Except.error Err.eof := by
  have h := store.Read_negative (newStore []) (2 ^ 63) (by decide) (by decide)
  refine ⟨by decide, h, ?_⟩
  rw [h]
  simp

/-- C9 (amended): on a store whose size counter is the length of its logical content,
reading at a `uint64` position at or past the size fails and returns no payload: with
`io.EOF` when the eight bytes of the length end within the file offsets
(`pos + 8 ≤ 2 ^ 63 - 1`), and with the invalid-argument error of the operating system
otherwise (the read would end beyond the largest offset, or `int64(pos)` is negative). -/
theorem store_Read_past_end (s : store) (pos : Nat) (hs : s.size = s.content.length)
    (hp : s.size ≤ pos) (h64 : pos < 2 ^ 64) :
    (s.Read pos).1 = Except.error (if pos + 8 < 2 ^ 63 then Err.eof else Err.invalid) := by
  by_cases h : pos + 8 < 2 ^ 63
  · rw [if_pos h]
    exact store.Read_beyond s pos hs hp h
  · rw [if_neg h]
    by_cases h2 : pos < 2 ^ 63
    · exact store.Read_range s pos h2 (by omega)
    · exact store.Read_negative s pos (by omega) h64

/-- C9 (witness): reading at position 5 of a store of size 3. -/
theorem store_Read_past_end_witness :
    ((newStore [1, 2, 3]).Read 5).1 = Except.error Err.eof :=
  store_Read_past_end (newStore [1, 2, 3]) 5 (by decide) (by decide) (by decide)

/-- C10 (counterexample): an index of size 0 closes to the empty file, and opening an
index over that file with the maximum 0, which is at least the size, fails: mapping a
file of length zero is an invalid argument. -/
theorem index_close_reopen_counterexample :
    (index.mk (List.replicate 12 0) 0).Close = Except.ok [] ∧
    (index.mk (List.replicate 12 0) 0).size ≤ 0 ∧
    newIndex [] 0 = Except.error Err.invalid := by
  refine ⟨by decide, by decide, newIndex_zero []⟩

/-- C10 (amended): index close and reopen.  For an index whose size is within its mapped
region, `Close` leaves a file of exactly `size` bytes, the first `size` mapped bytes;
opening an index over that file with a positive maximum of at least `size` (a valid file
length) gives the same size, and every entry `k` with `k * 12 + 12 ≤ size` reads as
before the close. -/
theorem index_close_reopen (i : index) (max : Nat) (hs : i.size ≤ i.mmap.length)
    (hcap : i.mmap.length < 2 ^ 63) (hmax : i.size ≤ max) (hmax0 : 0 < max)
    (hmax2 : max < 2 ^ 63) :
    ∃ f j, i.Close = Except.ok f ∧ f.length = i.size ∧ f = i.mmap.take i.size ∧
      newIndex f max = Except.ok j ∧ j.size = i.size ∧
      ∀ k : Nat, k * 12 + 12 ≤ i.size → j.Read (k : Int) = i.Read (k : Int) := by
  have hc := i.Close_ok hs hcap
  have hfl : (i.mmap.take i.size).length = i.size := by
    rw [List.length_take]; omega
  have ho := newIndex_ok (i.mmap.take i.size) max hmax0 hmax2
  have ht : (i.mmap.take i.size).take max = i.mmap.take i.size :=
    List.take_of_length_le (by omega)
  rw [ht, hfl, Nat.mod_eq_of_lt (by omega)] at ho
  refine ⟨_, _, hc, hfl, rfl, ho, rfl, ?_⟩
  intro k hk
  have hk1 : 12 * k + 12 ≤ i.size := by omega
  refine index.Read_congr i _ k i.size hs ?_ (List.take_left' hfl) hk1 hk1 hk1
  simp only [List.length_append, hfl, List.length_replicate]
  omega

/-- C10 (witness): an index of 24 bytes holding one entry, closed and reopened with a
maximum of 36 bytes. -/
theorem index_close_reopen_witness :
    ∃ f j, (index.mk (PutUint32 5 ++ PutUint64 6 ++ List.replicate 12 0) 12).Close
        = Except.ok f ∧ f.length = 12 ∧
      f = (PutUint32 5 ++ PutUint64 6 ++ List.replicate 12 (0 : Byte)).take 12 ∧
      newIndex f 36 = Except.ok j ∧ j.size = 12 ∧
      ∀ k : Nat, k * 12 + 12 ≤ 12 → j.Read (k : Int)
        = (index.mk (PutUint32 5 ++ PutUint64 6 ++ List.replicate 12 0) 12).Read (k : Int) :=
  index_close_reopen (index.mk (PutUint32 5 ++ PutUint64 6 ++ List.replicate 12 0) 12) 36
    (by decide) (by decide) (by decide) (by decide) (by decide)

/-- C11: store restart resumption.  Take a store whose size counter is the length of its
logical content, append `p` and then the payloads `qs` (the file staying below `2 ^ 63`
bytes), close it, and open a new store over the file that `Close` leaves.  The new store
has the size of the old one, reading at the position that the append of `p` returned
still gives `p`, and the next append returns the old size as its position. -/
theorem store_restart (s0 : store) (p : List Byte) (qs : List (List Byte)) (q : List Byte)
    (hs : s0.size = s0.content.length)
    (hlen : ((s0.Append p).2.2.appendAll qs).content.length < 2 ^ 63) :
    (newStore ((s0.Append p).2.2.appendAll qs).Close).size
      = ((s0.Append p).2.2.appendAll qs).size ∧
    ((newStore ((s0.Append p).2.2.appendAll qs).Close).Read (s0.Append p).2.1).1
      = Except.ok p ∧
    ((newStore ((s0.Append p).2.2.appendAll qs).Close).Append q).2.1
      = ((s0.Append p).2.2.appendAll qs).size := by
  have hinv1 : (s0.Append p).2.2.size = (s0.Append p).2.2.content.length := by
    obtain ⟨rest, hrest⟩ := store.content_appendAll (s0.Append p).2.2 qs
    have hl := congrArg List.length hrest
    rw [store.content_Append] at hl
    simp only [List.length_append, length_PutUint64] at hl
    exact store.size_Append_inv s0 p hs (by omega)
  have hinv := store.size_appendAll_inv (s0.Append p).2.2 qs hinv1 (by omega)
  have hc := store.content_newStore_Close ((s0.Append p).2.2.appendAll qs)
  have hsz : (newStore ((s0.Append p).2.2.appendAll qs).Close).size
      = ((s0.Append p).2.2.appendAll qs).size := by
    rw [hinv]
    show ((s0.Append p).2.2.appendAll qs).Close.length % 2 ^ 64 = _
    have : ((s0.Append p).2.2.appendAll qs).Close
        = ((s0.Append p).2.2.appendAll qs).content := rfl
    rw [this]
    exact Nat.mod_eq_of_lt (by omega)
  refine ⟨hsz, ?_, ?_⟩
  · obtain ⟨rest, hrest⟩ := store.content_appendAll (s0.Append p).2.2 qs
    rw [store.content_Append] at hrest
    rw [store.pos_Append_eq, hs]
    exact store.Read_frame _ s0.content p rest (by rw [hc]; exact hrest) (by rw [hc]; exact hlen)
  · rw [store.pos_Append_eq, hsz]

/-- C11 (witness): a store over a three-byte file, three appends, close and reopen. -/
theorem store_restart_witness :
    (newStore (((newStore [1, 2, 3]).Append [7, 8, 9]).2.2.appendAll [[4], [5, 6]]).Close).size
      = (((newStore [1, 2, 3]).Append [7, 8, 9]).2.2.appendAll [[4], [5, 6]]).size ∧
    ((newStore (((newStore [1, 2, 3]).Append [7, 8, 9]).2.2.appendAll [[4], [5, 6]]).Close).Read
      ((newStore [1, 2, 3]).Append [7, 8, 9]).2.1).1 = Except.ok [7, 8, 9] ∧
    ((newStore (((newStore [1, 2, 3]).Append [7, 8, 9]).2.2.appendAll [[4], [5, 6]]).Close).Append
      [0]).2.1 = (((newStore [1, 2, 3]).Append [7, 8, 9]).2.2.appendAll [[4], [5, 6]]).size :=
  store_restart (newStore [1, 2, 3]) [7, 8, 9] [[4], [5, 6]] [0] (by decide) (by decide)

/-- C12: segment capacity exhaustion.  A segment opened over an empty directory with a
maximum of `12 * K` index bytes (positive, as a segment that opens needs, and a valid
file length) takes `K` appends, all successful; one more append fails with `io.EOF`, and
`IsMaxed` is then true.  This holds for every base offset, store limit, serialisation
and records. -/
theorem segment_capacity (cd : Codec) (B M K : Nat) (rs : List Record) (r : Record)
    (hK0 : 0 < K) (hK : 12 * K < 2 ^ 63) (hrs : rs.length = K) :
    ∃ sg, newSegment [] [] B ⟨M, 12 * K⟩ = Except.ok sg ∧
      (sg.appendAll cd rs).1.length = K ∧
      (∀ res ∈ (sg.appendAll cd rs).1, ∃ o, res = Except.ok o) ∧
      ((sg.appendAll cd rs).2.Append cd r).1 = Except.error Err.eof ∧
      ((sg.appendAll cd rs).2.Append cd r).2.IsMaxed = true := by
  subst hrs
  have hn := newSegment_empty B ⟨M, 12 * rs.length⟩ (by simp only []; omega) hK
  obtain ⟨b1, b2, b3, b4, b5⟩ := segment.appendAll_index cd
    (segment.mk (newStore []) (index.mk (List.replicate (12 * rs.length) 0) 0) B
      ((B + 0 / entWidth) % 2 ^ 64) ⟨M, 12 * rs.length⟩) rs
    (by simp only [List.length_replicate]; omega)
    (by simp only [List.length_replicate]; omega)
  simp only [List.length_replicate, Nat.zero_add] at b3 b4
  obtain ⟨c1, c2, c3⟩ := segment.Append_eof cd _ r (by rw [b3, b4]; omega) (by rw [b3]; omega)
  refine ⟨_, hn, b2, b1, c1, ?_⟩
  simp only [segment.IsMaxed, c2, c3, b3, b5, Nat.le_refl, decide_True, Bool.or_true]

/-- C12 (witness): the test of the segment: base offset 16, room for three entries, a
store limit of 1024 and the payload "hello world". -/
theorem segment_capacity_witness :
    ∃ sg, newSegment [] [] 16 ⟨1024, 12 * 3⟩ = Except.ok sg ∧
      (sg.appendAll offsetCodec
        (List.replicate 3 ⟨[104, 101, 108, 108, 111, 32, 119, 111, 114, 108, 100], 0⟩)).1.length
        = 3 ∧
      (∀ res ∈ (sg.appendAll offsetCodec
        (List.replicate 3 ⟨[104, 101, 108, 108, 111, 32, 119, 111, 114, 108, 100], 0⟩)).1,
        ∃ o, res = Except.ok o) ∧
      ((sg.appendAll offsetCodec
        (List.replicate 3 ⟨[104, 101, 108, 108, 111, 32, 119, 111, 114, 108, 100], 0⟩)).2.Append
        offsetCodec ⟨[104, 101, 108, 108, 111, 32, 119, 111, 114, 108, 100], 0⟩).1
        = Except.error Err.eof ∧
      ((sg.appendAll offsetCodec
        (List.replicate 3 ⟨[104, 101, 108, 108, 111, 32, 119, 111, 114, 108, 100], 0⟩)).2.Append
        offsetCodec ⟨[104, 101, 108, 108, 111, 32, 119, 111, 114, 108, 100], 0⟩).2.IsMaxed
        = true :=
  segment_capacity offsetCodec 16 1024 3
    (List.replicate 3 ⟨[104, 101, 108, 108, 111, 32, 119, 111, 114, 108, 100], 0⟩)
    ⟨[104, 101, 108, 108, 111, 32, 119, 111, 114, 108, 100], 0⟩ (by decide) (by decide)
    (by decide)

/-- C13: definition of `IsMaxed`.  For every segment, `IsMaxed` is true exactly when the
store size has reached `MaxStoreBytes` or the index size has reached `MaxIndexBytes`; a
segment opened over an existing store file whose length has reached `MaxStoreBytes` is
maxed without any append; a segment opened over an empty directory with positive limits
is not. -/
theorem segment_IsMaxed (sg : segment) (sf idf : List Byte) (B : Nat) (c : Config)
    (h64 : sf.length < 2 ^ 64) (hc : c.MaxIndexBytes < 2 ^ 63)
    (hfull : c.MaxStoreBytes ≤ sf.length) (hp1 : 0 < c.MaxStoreBytes)
    (hp2 : 0 < c.MaxIndexBytes) :
    (sg.IsMaxed = true ↔
      sg.config.MaxStoreBytes ≤ sg.store.size ∨ sg.config.MaxIndexBytes ≤ sg.index.size) ∧
    (∃ t, newSegment sf idf B c = Except.ok t ∧ t.IsMaxed = true) ∧
    (∃ t, newSegment [] [] B c = Except.ok t ∧ t.IsMaxed = false) := by
  refine ⟨?_, ?_, ?_⟩
  · simp only [segment.IsMaxed, Bool.or_eq_true, decide_eq_true_eq]
  · have ho := newIndex_ok idf c.MaxIndexBytes hp2 hc
    refine ⟨segment.mk (newStore sf)
      (index.mk (idf.take c.MaxIndexBytes ++ List.replicate (c.MaxIndexBytes - idf.length) 0)
        (idf.length % 2 ^ 64)) B ((B + idf.length % 2 ^ 64 / entWidth) % 2 ^ 64) c,
      by simp only [newSegment, ho], ?_⟩
    have h1 : c.MaxStoreBytes ≤ sf.length % 2 ^ 64 := by
      rw [Nat.mod_eq_of_lt h64]; exact hfull
    simp only [segment.IsMaxed, newStore, h1, decide_True, Bool.true_or]
  · refine ⟨_, newSegment_empty B c hp2 hc, ?_⟩
    have h1 : ¬ (c.MaxStoreBytes ≤ 0) := by omega
    have h2 : ¬ (c.MaxIndexBytes ≤ 0) := by omega
    simp only [segment.IsMaxed, newStore, List.length_nil, Nat.zero_mod, h1, h2,
      decide_False, Bool.or_self]

/-- C13 (witness): the second half of the test of the segment: a store limit of 33 over a
store file of 69 bytes and an index file of 36 bytes. -/
theorem segment_IsMaxed_witness :
    ((segment.mk (newStore []) (index.mk [] 0) 16 16 ⟨33, 1024⟩).IsMaxed = true ↔
      (33 : Nat) ≤ 0 ∨ (1024 : Nat) ≤ 0) ∧
    (∃ t, newSegment (List.replicate 69 0) (List.replicate 36 0) 16 ⟨33, 1024⟩ = Except.ok t ∧
      t.IsMaxed = true) ∧
    (∃ t, newSegment [] [] 16 ⟨33, 1024⟩ = Except.ok t ∧ t.IsMaxed = false) :=
  segment_IsMaxed (segment.mk (newStore []) (index.mk [] 0) 16 16 ⟨33, 1024⟩)
    (List.replicate 69 0) (List.replicate 36 0) 16 ⟨33, 1024⟩ (by decide) (by decide)
    (by decide) (by decide) (by decide)

/-- C14 (failing input): opening an index with a maximum of 12 bytes over a file of 24
bytes succeeds and leaves the size at 24 over a mapped region of 12 bytes; reading
entry 1 then slices the region out of bounds. -/
theorem index_capacity_invariant_broken :
    newIndex (List.replicate 24 0) 12 = Except.ok (index.mk (List.replicate 12 0) 24) ∧
    ¬ ((index.mk (List.replicate 12 0) 24).size ≤ (index.mk (List.replicate 12 0) 24).mmap.length) ∧
    (index.mk (List.replicate 12 0) 24).Read 1 = Except.error Err.panic := by
  refine ⟨by decide, by decide, by decide⟩

/-- C15 (counterexample): an index opened with a maximum of 1024 bytes over a file of 1024
bytes (the file as a run that did not close the index leaves it) has size 1024, which
is not a multiple of 12. -/
theorem index_entry_width_counterexample :
    ∃ i, newIndex (List.replicate 1024 0) 1024 = Except.ok i ∧ i.size = 1024 ∧ ¬ (12 ∣ i.size) := by
  refine ⟨_, newIndex_ok _ 1024 (by norm_num) (by norm_num), ?_, ?_⟩
  · simp only [List.length_replicate]
    norm_num
  · simp only [List.length_replicate]
    norm_num

/-- C15 (amended): an index opened, with a positive maximum that is a valid file length,
over a file whose length is a multiple of 12 (the empty file, or the file left by
`Close` of an index with such a size) has a size that is a multiple of 12; a write,
successful or not, keeps the size a multiple of 12, and so does a read, whatever its
selector. -/
theorem index_entry_width (f : List Byte) (max : Nat) (i : index) (off pos : Nat) (sel : Int)
    (hf : 12 ∣ f.length) (hf64 : f.length < 2 ^ 64) (hmax0 : 0 < max) (hmax : max < 2 ^ 63)
    (hi : 12 ∣ i.size) (his : i.size < 2 ^ 63) :
    (∃ j, newIndex f max = Except.ok j ∧ 12 ∣ j.size) ∧
    12 ∣ (i.afterWrite off pos).size ∧ 12 ∣ (i.afterRead sel).size := by
  refine ⟨⟨_, newIndex_ok f max hmax0 hmax, ?_⟩, ?_, hi⟩
  · simp only [Nat.mod_eq_of_lt hf64]
    exact hf
  · rcases hw : i.Write off pos with e | j
    · rw [index.afterWrite_error i off pos e hw]
      exact hi
    · rw [index.afterWrite_ok i j off pos hw, (index.Write_size i j off pos hw).1]
      have : (i.size + entWidth) % 2 ^ 64 = i.size + 12 :=
        Nat.mod_eq_of_lt (by simp only [entWidth, offWidth, posWidth]; omega)
      rw [this]
      omega

/-- C15 (witness): an index opened over the empty file, and a write to and a read of an
index that holds one entry. -/
theorem index_entry_width_witness :
    (∃ j, newIndex [] 36 = Except.ok j ∧ 12 ∣ j.size) ∧
    12 ∣ ((index.mk (List.replicate 36 0) 12).afterWrite 1 19).size ∧
    12 ∣ ((index.mk (List.replicate 36 0) 12).afterRead (-1)).size :=
  index_entry_width [] 36 (index.mk (List.replicate 36 0) 12) 1 19 (-1) (by decide)
    (by decide) (by decide) (by decide) (by decide) (by decide)

/-- C16 (counterexample): with a store limit of 8 bytes, a store that already holds a
frame of 19 bytes takes one more append of "hello world": the append returns 19 bytes
written at position 19, no error, and the payload reads back. -/
theorem store_Append_past_limit_counterexample :
    8 ≤ ((newStore []).Append [104, 101, 108, 108, 111, 32, 119, 111, 114, 108, 100]).2.2.size ∧
    (((newStore []).Append [104, 101, 108, 108, 111, 32, 119, 111, 114, 108, 100]).2.2.Append
      [104, 101, 108, 108, 111, 32, 119, 111, 114, 108, 100]).1 = 19 ∧
    (((newStore []).Append [104, 101, 108, 108, 111, 32, 119, 111, 114, 108, 100]).2.2.Append
      [104, 101, 108, 108, 111, 32, 119, 111, 114, 108, 100]).2.1 = 19 ∧
    ((((newStore []).Append [104, 101, 108, 108, 111, 32, 119, 111, 114, 108, 100]).2.2.Append
      [104, 101, 108, 108, 111, 32, 119, 111, 114, 108, 100]).2.2.Read 19).1
      = Except.ok [104, 101, 108, 108, 111, 32, 119, 111, 114, 108, 100] := by
  refine ⟨by decide, by decide, by decide, by decide⟩

/-- C16 (amended): `store.Append` enforces no capacity limit.  In a segment whose store
size has reached the configured `MaxStoreBytes`, `IsMaxed` is true, and an append to
the store succeeds like any other: it returns the size as position and `8 + len(p)` as
bytes written, the payload reads back at that position, and the store stays at or
beyond the limit.  The end-of-data sentinel on capacity exhaustion is what
`index.Write` returns when the index has no room for one more entry. -/
theorem store_Append_no_limit (sg : segment) (p : List Byte) (i : index) (off pos : Nat)
    (hs : sg.store.size = sg.store.content.length)
    (hL : sg.config.MaxStoreBytes ≤ sg.store.size)
    (hlen : (sg.store.Append p).2.2.content.length < 2 ^ 63)
    (hfull : i.mmap.length < i.size + 12) (his : i.size < 2 ^ 63) :
    sg.IsMaxed = true ∧
    (sg.store.Append p).2.1 = sg.store.size ∧ (sg.store.Append p).1 = 8 + p.length ∧
    ((sg.store.Append p).2.2.Read sg.store.size).1 = Except.ok p ∧
    sg.config.MaxStoreBytes ≤ (sg.store.Append p).2.2.size ∧
    i.Write off pos = Except.error Err.eof := by
  have hl := hlen
  rw [store.content_Append] at hl
  simp only [List.length_append, length_PutUint64] at hl
  have hsz := store.size_Append_inv sg.store p hs (by omega)
  refine ⟨?_, rfl, ?_, ?_, ?_, i.Write_eof off pos hfull (by omega)⟩
  · simp only [segment.IsMaxed, hL, decide_True, Bool.true_or]
  · rw [store.written_Append_eq]
    simp only [lenWidth]
    omega
  · rw [hs]
    exact store.Read_frame _ sg.store.content p []
      (by rw [store.content_Append, List.append_nil]) hlen
  · rw [hsz, store.content_Append]
    simp only [List.length_append, length_PutUint64]
    omega

/-- C16 (witness): a segment with a store limit of 8 bytes whose store holds 19 bytes,
one more append to the store, and a write to a full index of 12 bytes. -/
theorem store_Append_no_limit_witness :
    (segment.mk (newStore (List.replicate 19 0)) (index.mk (List.replicate 36 0) 12) 16 17
      ⟨8, 36⟩).IsMaxed = true ∧
    ((newStore (List.replicate 19 0)).Append [1, 2]).2.1 = (newStore (List.replicate 19 0)).size ∧
    ((newStore (List.replicate 19 0)).Append [1, 2]).1 = 8 + [1, 2].length ∧
    (((newStore (List.replicate 19 0)).Append [1, 2]).2.2.Read
      (newStore (List.replicate 19 0)).size).1 = Except.ok [1, 2] ∧
    8 ≤ ((newStore (List.replicate 19 0)).Append [1, 2]).2.2.size ∧
    (index.mk (List.replicate 12 0) 12).Write 1 19 = Except.error Err.eof :=
  store_Append_no_limit
    (segment.mk (newStore (List.replicate 19 0)) (index.mk (List.replicate 36 0) 12) 16 17 ⟨8, 36⟩)
    [1, 2] (index.mk (List.replicate 12 0) 12) 1 19 (by decide) (by decide) (by decide)
    (by decide) (by decide)

/-- C17: index bounds safety.  On an index whose size is within its mapped region, a read
with any selector either returns `io.EOF` or finds its twelve bytes inside the region
and returns the decoded entry, and a write either returns `io.EOF` or finds its twelve
bytes inside the region and succeeds; neither panics. -/
theorem index_bounds_safe (i : index) (sel : Int) (off pos : Nat)
    (hs : i.size ≤ i.mmap.length) (hcap : i.mmap.length < 2 ^ 63) :
    (i.Read sel = Except.error Err.eof ∨
      (12 * i.selected sel + 12 ≤ i.mmap.length ∧
        i.Read sel = Except.ok (entryAt i.mmap (i.selected sel)))) ∧
    (i.Write off pos = Except.error Err.eof ∨
      (i.size + 12 ≤ i.mmap.length ∧ ∃ j, i.Write off pos = Except.ok j)) ∧
    i.Read sel ≠ Except.error Err.panic ∧ i.Write off pos ≠ Except.error Err.panic := by
  have hr := index.Read_eq i sel hs
  have hR : i.Read sel = Except.error Err.eof ∨
      (12 * i.selected sel + 12 ≤ i.mmap.length ∧
        i.Read sel = Except.ok (entryAt i.mmap (i.selected sel))) := by
    by_cases c : i.size = 0 ∨ i.size < 12 * i.selected sel + 12
    · left; rw [hr, if_pos c]
    · right
      rw [hr, if_neg c]
      exact ⟨by omega, rfl⟩
  have hW : i.Write off pos = Except.error Err.eof ∨
      (i.size + 12 ≤ i.mmap.length ∧ ∃ j, i.Write off pos = Except.ok j) := by
    by_cases h : i.size + 12 ≤ i.mmap.length
    · right
      exact ⟨h, _, i.Write_ok off pos h (by omega)⟩
    · left
      exact i.Write_eof off pos (by omega) (by omega)
  refine ⟨hR, hW, ?_, ?_⟩
  · rcases hR with h | ⟨_, h⟩ <;> rw [h] <;> simp
  · rcases hW with h | ⟨_, j, h⟩ <;> rw [h] <;> simp

/-- C17 (witness): an index of 24 bytes holding one entry, read with the selector `-2`
and written once more. -/
theorem index_bounds_safe_witness :
    (index.mk (List.replicate 24 0) 12).Read (-2) ≠ Except.error Err.panic ∧
    (index.mk (List.replicate 24 0) 12).Write 1 19 ≠ Except.error Err.panic :=
  (index_bounds_safe (index.mk (List.replicate 24 0) 12) (-2) 1 19 (by decide) (by decide)).2.2

/-- C18: a failed `index.Write` is atomic.  When there is no room for one more entry, the
write returns `io.EOF`, and the index after the call has the size and the mapped bytes
it had before, so every read gives the result it gave before. -/
theorem index_Write_atomic (i : index) (off pos : Nat) (h : i.mmap.length < i.size + 12)
    (hs : i.size < 2 ^ 63) :
    i.Write off pos = Except.error Err.eof ∧
    (i.afterWrite off pos).size = i.size ∧ (i.afterWrite off pos).mmap = i.mmap ∧
    ∀ sel, (i.afterWrite off pos).Read sel = i.Read sel := by
  have hw := i.Write_eof off pos h (by omega)
  have ha := index.afterWrite_error i off pos Err.eof hw
  refine ⟨hw, by rw [ha], by rw [ha], ?_⟩
  intro sel
  rw [ha]

/-- C18 (witness): a write to a full index of 12 bytes. -/
theorem index_Write_atomic_witness :
    (index.mk (PutUint32 5 ++ PutUint64 6) 12).Write 7 9 = Except.error Err.eof ∧
    ((index.mk (PutUint32 5 ++ PutUint64 6) 12).afterWrite 7 9).size = 12 ∧
    ((index.mk (PutUint32 5 ++ PutUint64 6) 12).afterWrite 7 9).mmap
      = PutUint32 5 ++ PutUint64 6 ∧
    ∀ sel, ((index.mk (PutUint32 5 ++ PutUint64 6) 12).afterWrite 7 9).Read sel
      = (index.mk (PutUint32 5 ++ PutUint64 6) 12).Read sel :=
  index_Write_atomic (index.mk (PutUint32 5 ++ PutUint64 6) 12) 7 9 (by decide) (by decide)

end Gowal
